import Mathlib

/-!
# Metablobs: a verification development for `metaballs.c`

The C program works on `float`s.  Here every `float` is an element of an
arbitrary linear ordered field `F` (exact arithmetic): the definitions are
computable and can be run at `F = ℚ`, and every theorem holds at `F = ℝ` as
well.  Decimal literals of the source (`1.2f`, `0.0001f`, ...) are the exact
decimals.  The libm functions `sqrtf`, `cosf` and `sinf` are not part of the
repository; the functions that call them take them as parameters.  The conversion `(int)` of a
`float` is truncation toward zero into the (unbounded) integers.

The last part of the file repeats the field and the marcher with a rounding after
every operation (`metablob_field_fl`, `ray_march_fl`) and defines the binary32 rounding,
to state what does and what does not survive in the arithmetic of the `float`s.

Arrays with a length (`Metablob *blobs, int num_blobs`) and the two frame
buffers are lists; the `int`s that index them are natural numbers.
-/

namespace Metablobs

variable {F : Type} [LinearOrderedField F]

/-! ## Constants (`#define`s of the source) -/

/-- The source's `METABLOB_RADIUS 1.2f`. -/
def METABLOB_RADIUS : F := 1.2

/-- The source's `THRESHOLD 1.0f`. -/
def THRESHOLD : F := 1.0

/-- The source's `MAX_STEPS 64`. -/
def MAX_STEPS : Nat := 64

/-- The source's `MAX_DISTANCE 20.0f`. -/
def MAX_DISTANCE : F := 20.0

/-- The source's `EPSILON 0.001f`. -/
def EPSILON : F := 0.001

/-! ## Data model -/

/-- The source's `typedef struct { float x, y, z; } Metablob;`. -/
structure Metablob (F : Type) where
  x : F
  y : F
  z : F

/-! ## Field model -/

/-- The source's `metablob_field`: the loop over `blobs[0..num_blobs)` is a left fold whose
accumulator is `sum`. -/
def metablob_field (px py pz : F) (blobs : List (Metablob F)) : F :=
  blobs.foldl
    (fun sum b =>
      let dx := px - b.x
      let dy := py - b.y
      let dz := pz - b.z
      let dist_sq := dx * dx + dy * dy + dz * dz
      if dist_sq > 0.0001 then sum + (METABLOB_RADIUS * METABLOB_RADIUS) / dist_sq else sum)
    0

/-- Squared Euclidean distance from the point `(px, py, pz)` to the centre of `b`
(the quantity the specification calls the squared distance). -/
def squared_distance (px py pz : F) (b : Metablob F) : F :=
  (px - b.x) * (px - b.x) + (py - b.y) * (py - b.y) + (pz - b.z) * (pz - b.z)

/-- One blob's share of the field, as the specification words it: `1.44 / d²` when the
squared distance exceeds `0.0001`, nothing otherwise. -/
def blob_term (px py pz : F) (b : Metablob F) : F :=
  if squared_distance px py pz b > 0.0001 then 1.44 / squared_distance px py pz b else 0

/-! ## Ray marcher -/

/-- What one call of the source's `ray_march` produces: `ret` is the returned `float`
(the hit distance `t`, or `-1.0f`), `hit` holds the values stored through `hit_x`, `hit_y`,
`hit_z` (`none` when the call stores nothing), and `evals` records, in order, the ray
parameter `t` of every evaluation of `metablob_field` the call makes. -/
structure MarchResult (F : Type) where
  ret : F
  hit : Option (F × F × F)
  evals : List F

/-- The `for` loop of the source's `ray_march`, started with the current value of `t` and
the number of iterations still allowed (`MAX_STEPS - step`). -/
def ray_march_loop (ox oy oz dx dy dz : F) (blobs : List (Metablob F)) :
    Nat → F → MarchResult F
  | 0, _ => ⟨-1.0, none, []⟩
  | n + 1, t =>
    let px := ox + dx * t
    let py := oy + dy * t
    let pz := oz + dz * t
    let field := metablob_field px py pz blobs
    if field ≥ THRESHOLD then
      ⟨t, some (px, py, pz), [t]⟩
    else
      let step_size := 0.1 / (field + 0.1)
      let t' := t + step_size
      if t' > MAX_DISTANCE then
        ⟨-1.0, none, [t]⟩
      else
        let r := ray_march_loop ox oy oz dx dy dz blobs n t'
        ⟨r.ret, r.hit, t :: r.evals⟩

/-- The source's `ray_march`: `t` starts at `0.0f` and the loop runs at most `MAX_STEPS`
times. -/
def ray_march (ox oy oz dx dy dz : F) (blobs : List (Metablob F)) : MarchResult F :=
  ray_march_loop ox oy oz dx dy dz blobs MAX_STEPS 0.0

/-- The field seen along the ray at parameter `s`: `metablob_field` at
`origin + direction * s`. -/
def sample_field (ox oy oz dx dy dz : F) (blobs : List (Metablob F)) (s : F) : F :=
  metablob_field (ox + dx * s) (oy + dy * s) (oz + dz * s) blobs

/-! ## Normal estimator -/

/-- The source's `calculate_normal`; the triple is what the call leaves in `*nx`, `*ny`,
`*nz`.  `sqrtf` is the libm square root. -/
def calculate_normal (sqrtf : F → F) (px py pz : F) (blobs : List (Metablob F)) : F × F × F :=
  let fx := metablob_field px py pz blobs
  let fx_plus := metablob_field (px + EPSILON) py pz blobs
  let fy_plus := metablob_field px (py + EPSILON) pz blobs
  let fz_plus := metablob_field px py (pz + EPSILON) blobs
  let nx := fx_plus - fx
  let ny := fy_plus - fx
  let nz := fz_plus - fx
  let len := sqrtf (nx * nx + ny * ny + nz * nz)
  if len > 0.0001 then (nx / len, ny / len, nz / len) else (nx, ny, nz)

/-- The forward differences of the field with one shared baseline, as the specification
words the raw normal: `field(p + eps * e_axis) - field(p)` for the three axes, `eps = 0.001`. -/
def forward_difference (px py pz : F) (blobs : List (Metablob F)) : F × F × F :=
  (metablob_field (px + 0.001) py pz blobs - metablob_field px py pz blobs,
   metablob_field px (py + 0.001) pz blobs - metablob_field px py pz blobs,
   metablob_field px py (pz + 0.001) blobs - metablob_field px py pz blobs)

/-- Sum of the squares of the three components. -/
def norm_sq (v : F × F × F) : F :=
  v.1 * v.1 + v.2.1 * v.2.1 + v.2.2 * v.2.2

/-! ## Camera -/

/-- The source's `BASE_SCALE_X 90.0f`. -/
def BASE_SCALE_X : F := 90.0

/-- The source's `BASE_SCALE_Y 45.0f`. -/
def BASE_SCALE_Y : F := 45.0

/-- The source's `BASE_WIDTH 80.0f`. -/
def BASE_WIDTH : F := 80.0

/-- The source's `BASE_HEIGHT 22.0f`. -/
def BASE_HEIGHT : F := 22.0

/-- The source's `K2 8.0f`. -/
def K2 : F := 8.0

/-- The C conversion `(int)x` of a `float`: the fractional part is discarded (truncation
toward zero). -/
def c_int_cast [FloorRing F] (x : F) : Int :=
  if 0 ≤ x then ⌊x⌋ else ⌈x⌉

/-- The source's `scale_factor` in `main`, for `SCREEN_WIDTH = W` and `SCREEN_HEIGHT = H`;
`fminf` is `min`. -/
def scale_factor (W H : Int) : F :=
  min ((W : F) / BASE_WIDTH) ((H : F) / BASE_HEIGHT)

/-- The source's `K1_X` in `main`. -/
def K1_X (W H : Int) : F :=
  BASE_SCALE_X * scale_factor W H

/-- The source's `K1_Y` in `main`. -/
def K1_Y (W H : Int) : F :=
  BASE_SCALE_Y * scale_factor W H

/-- The source's `Y_CENTER` in `main`, computed in the `float`s `F`. -/
def Y_CENTER (F : Type) [LinearOrderedField F] [FloorRing F] (H : Int) : Int :=
  c_int_cast (12.0 * (H : F) / BASE_HEIGHT)

/-- The ray direction before normalisation, for the cell `(screen_x, screen_y)`: the values
of `ray_x`, `ray_y`, `ray_z` at the assignment of `ray_z` in `main`. -/
def ray_raw [FloorRing F] (W H screen_x screen_y : Int) : F × F × F :=
  let ray_x := ((screen_x : F) - (W : F) / 2.0) / K1_X W H
  let ray_y := (((Y_CENTER F H : Int) : F) - (screen_y : F)) / K1_Y W H
  let ray_z := 1.0
  (ray_x, ray_y, ray_z)

/-- The normalised ray direction `main` passes to `ray_march` for the cell
`(screen_x, screen_y)`.  `sqrtf` is the libm square root. -/
def ray_direction [FloorRing F] (sqrtf : F → F) (W H screen_x screen_y : Int) : F × F × F :=
  let ray_x := ((screen_x : F) - (W : F) / 2.0) / K1_X W H
  let ray_y := (((Y_CENTER F H : Int) : F) - (screen_y : F)) / K1_Y W H
  let ray_z := 1.0
  let ray_len := sqrtf (ray_x * ray_x + ray_y * ray_y + ray_z * ray_z)
  (ray_x / ray_len, ray_y / ray_len, ray_z / ray_len)

/-! ## Luminance index -/

/-- The glyph index `main` computes from `luminance`: the conversion to `int` followed by
the two clamping `if`s. -/
def luminance_index [FloorRing F] (luminance : F) : Int :=
  let luminance_index := c_int_cast (luminance * 8.0 + 4.0)
  let luminance_index := if luminance_index < 0 then 0 else luminance_index
  if luminance_index > 11 then 11 else luminance_index

/-- The glyph index as the specification words it: `round(luminance * 8 + 4)` clamped to
`[0, 11]` (rounding to the nearest integer). -/
def spec_luminance_index [FloorRing F] (luminance : F) : Int :=
  max 0 (min 11 (round (luminance * 8 + 4)))

/-- The source's `LUMINANCE_CHARS[]`: the twelve glyphs of the string literal followed by
its terminating NUL. -/
def LUMINANCE_CHARS : List Char :=
  ".:;!=Xs*$M@#".toList ++ [Char.ofNat 0]

/-- The array read `LUMINANCE_CHARS[i]`; `none` stands for an index outside the array. -/
def glyph_at (i : Int) : Option Char :=
  if 0 ≤ i then LUMINANCE_CHARS[i.toNat]? else none

/-! ## Motion of the blobs -/

/-- The source's `rotate`: the pair is what the call leaves in `*a` and `*b`.  `cosf` and
`sinf` are the libm functions. -/
def rotate (cosf sinf : F → F) (a b angle : F) : F × F :=
  let cos_a := cosf angle
  let sin_a := sinf angle
  let temp_a := a * cos_a - b * sin_a
  let temp_b := a * sin_a + b * cos_a
  (temp_a, temp_b)

/-- The array `blobs` that `main` fills at the start of a frame from `angle_A` and
`angle_B`: the three orbital positions followed by the two rotations of each blob. -/
def blob_positions (cosf sinf : F → F) (angle_A angle_B : F) : List (Metablob F) :=
  let orbit1_angle := angle_A * 2.3
  let b0x := 1.5 * cosf orbit1_angle
  let b0y := 1.5 * sinf orbit1_angle
  let b0z := 0.8 * sinf (angle_B * 3.1)
  let orbit2_angle := angle_A * 1.7 + 1.5
  let b1x := 2.2 * cosf orbit2_angle
  let b1y := 2.2 * sinf orbit2_angle
  let b1z := 1.0 * cosf (angle_B * 2.3)
  let orbit3_angle := angle_A * 1.1 + 3.7
  let b2x := 2.6 * cosf orbit3_angle
  let b2y := 2.6 * sinf orbit3_angle
  let b2z := 0.6 * sinf (angle_B * -1.8)
  let yz0 := rotate cosf sinf b0y b0z (angle_A * 0.9)
  let xy0 := rotate cosf sinf b0x yz0.1 (angle_B * 0.6)
  let yz1 := rotate cosf sinf b1y b1z (angle_A * 0.5 + 1.2)
  let xy1 := rotate cosf sinf b1x yz1.1 (angle_B * 0.8)
  let yz2 := rotate cosf sinf b2y b2z (angle_A * 0.3 + 2.5)
  let xy2 := rotate cosf sinf b2x yz2.1 (angle_B * 0.4)
  [⟨xy0.1, xy0.2, yz0.2⟩, ⟨xy1.1, xy1.2, yz1.2⟩, ⟨xy2.1, xy2.2, yz2.2⟩]

/-! ## Frame compositor -/

/-- The two buffers of `main`: `z_buffer` (one `float` per cell) and `screen_buffer` (one
`char` per cell). -/
structure FrameBuffers (F : Type) where
  z_buffer : List F
  screen_buffer : List Char

/-- What the two buffers hold for the cell at index `j`: its depth and its glyph (`none`
for an index outside the buffer). -/
def cell_state (bufs : FrameBuffers F) (j : Nat) : Option F × Option Char :=
  (bufs.z_buffer[j]?, bufs.screen_buffer[j]?)

/-- The call `memset(buf, c, n)` on a buffer of cells: the first `n` cells become `c`. -/
def memset {α : Type} (buf : List α) (c : α) (n : Nat) : List α :=
  List.replicate (min n buf.length) c ++ buf.drop n

/-- The source's `buffer_index` for the cell `(screen_x, screen_y)` of a viewport of width
`W`. -/
def buffer_index (W screen_x screen_y : Nat) : Nat :=
  screen_x + W * screen_y

/-- The depth test of `main` for one candidate hit: when `depth` exceeds the stored depth of
the cell, the depth and the glyph of the cell are overwritten; otherwise nothing changes. -/
def depth_test (bufs : FrameBuffers F) (buffer_index : Nat) (depth : F) (glyph : Char) :
    FrameBuffers F :=
  if depth > bufs.z_buffer.getD buffer_index 0 then
    ⟨bufs.z_buffer.set buffer_index depth, bufs.screen_buffer.set buffer_index glyph⟩
  else
    bufs

/-- The glyph `main` stores for a hit at the point `hit`: normal, luminance against the
light `(-0.3, -0.7, 0.6)`, index, ramp character. -/
def shade [FloorRing F] (sqrtf : F → F) (hit : F × F × F) (blobs : List (Metablob F)) : Char :=
  let n := calculate_normal sqrtf hit.1 hit.2.1 hit.2.2 blobs
  let luminance := n.1 * -0.3 + n.2.1 * -0.7 + n.2.2 * 0.6
  (glyph_at (luminance_index luminance)).getD (Char.ofNat 0)

/-- The call of `ray_march` that `main` makes for the cell `(screen_x, screen_y)`: from the
eye `(0, 0, -K2)` along the normalised ray direction of the cell. -/
def cell_march [FloorRing F] (sqrtf : F → F) (W H : Nat) (blobs : List (Metablob F))
    (screen_x screen_y : Nat) : MarchResult F :=
  let ray := ray_direction sqrtf (W : Int) (H : Int) (screen_x : Int) (screen_y : Int)
  let origin_x := 0.0
  let origin_y := 0.0
  let origin_z := -K2
  ray_march origin_x origin_y origin_z ray.1 ray.2.1 ray.2.2 blobs

/-- The body of the two pixel loops of `main` for the cell `(screen_x, screen_y)`.  `hit0`
stands for the indeterminate initial contents of the locals `hit_x`, `hit_y`, `hit_z`, which
`ray_march` overwrites when it reports a hit. -/
def render_cell [FloorRing F] (sqrtf : F → F) (hit0 : F × F × F) (W H : Nat)
    (blobs : List (Metablob F)) (screen_x screen_y : Nat) (bufs : FrameBuffers F) :
    FrameBuffers F :=
  let r := cell_march sqrtf W H blobs screen_x screen_y
  let hit := r.hit.getD hit0
  let t := r.ret
  if t > 0.0 then
    let depth := 1.0 / (t + 1.0)
    depth_test bufs (buffer_index W screen_x screen_y) depth (shade sqrtf hit blobs)
  else
    bufs

/-- The two nested pixel loops of `main` (rows outside, columns inside). -/
def render_pixels [FloorRing F] (sqrtf : F → F) (hit0 : F × F × F) (W H : Nat)
    (blobs : List (Metablob F)) (bufs : FrameBuffers F) : FrameBuffers F :=
  (List.range H).foldl
    (fun bufs screen_y =>
      (List.range W).foldl
        (fun bufs screen_x => render_cell sqrtf hit0 W H blobs screen_x screen_y bufs)
        bufs)
    bufs

/-- One pass of the `while` loop of `main` up to the end of the pixel loops: the buffers
are reset (the glyphs to the blank, character 32, the depths to zero), the blobs are placed,
every cell is rendered. -/
def render_frame [FloorRing F] (sqrtf cosf sinf : F → F) (hit0 : F × F × F) (W H : Nat)
    (angle_A angle_B : F) (bufs : FrameBuffers F) : FrameBuffers F :=
  let screen_buffer := memset bufs.screen_buffer (Char.ofNat 32) (W * H)
  let z_buffer := memset bufs.z_buffer 0 (W * H)
  let blobs := blob_positions cosf sinf angle_A angle_B
  render_pixels sqrtf hit0 W H blobs ⟨z_buffer, screen_buffer⟩

/-! ## The same code in rounded arithmetic

The field and the marcher once more, now with every arithmetic operation and every
literal of the source followed by a rounding `fl` to the set of `float`s (one rounding per
operation, no fused operations).  With `fl` the identity this is the exact model above;
with `fl = binary32` it is the arithmetic of the C program.  Inputs are assumed to be
`float`s already. -/

/-- Rounding of a rational to the nearest integer, ties to the even integer. -/
def round_half_even (z : ℚ) : Int :=
  if z - ⌊z⌋ < 1 / 2 then ⌊z⌋
  else if z - ⌊z⌋ > 1 / 2 then ⌊z⌋ + 1
  else if ⌊z⌋ % 2 = 0 then ⌊z⌋
  else ⌊z⌋ + 1

/-- IEEE 754 binary32 rounding to nearest, ties to even: a 24-bit significand, the least
exponent `-126` (so subnormal numbers are included); overflow to infinity is left out (the
exponent is unbounded above). -/
def binary32 (x : ℚ) : ℚ :=
  if x = 0 then 0
  else
    (round_half_even (x / 2 ^ (max (Int.log 2 |x|) (-126) - 23)) : ℚ)
      * 2 ^ (max (Int.log 2 |x|) (-126) - 23)

/-- The value of `dist_sq` in the loop body of `metablob_field`, each operation rounded. -/
def dist_sq_fl (fl : ℚ → ℚ) (px py pz : ℚ) (b : Metablob ℚ) : ℚ :=
  let dx := fl (px - b.x)
  let dy := fl (py - b.y)
  let dz := fl (pz - b.z)
  fl (fl (fl (dx * dx) + fl (dy * dy)) + fl (dz * dz))

/-- The source's `metablob_field`, each operation and literal rounded by `fl`. -/
def metablob_field_fl (fl : ℚ → ℚ) (px py pz : ℚ) (blobs : List (Metablob ℚ)) : ℚ :=
  blobs.foldl
    (fun sum b =>
      let dist_sq := dist_sq_fl fl px py pz b
      if dist_sq > fl 0.0001 then
        fl (sum + fl (fl (fl METABLOB_RADIUS * fl METABLOB_RADIUS) / dist_sq))
      else sum)
    (fl 0.0)

/-- The `for` loop of the source's `ray_march`, each operation and literal rounded by
`fl`. -/
def ray_march_loop_fl (fl : ℚ → ℚ) (ox oy oz dx dy dz : ℚ) (blobs : List (Metablob ℚ)) :
    Nat → ℚ → MarchResult ℚ
  | 0, _ => ⟨-fl 1.0, none, []⟩
  | n + 1, t =>
    let px := fl (ox + fl (dx * t))
    let py := fl (oy + fl (dy * t))
    let pz := fl (oz + fl (dz * t))
    let field := metablob_field_fl fl px py pz blobs
    if field ≥ fl THRESHOLD then
      ⟨t, some (px, py, pz), [t]⟩
    else
      let step_size := fl (fl 0.1 / fl (field + fl 0.1))
      let t' := fl (t + step_size)
      if t' > fl MAX_DISTANCE then
        ⟨-fl 1.0, none, [t]⟩
      else
        let r := ray_march_loop_fl fl ox oy oz dx dy dz blobs n t'
        ⟨r.ret, r.hit, t :: r.evals⟩

/-- A bound on the number of further samples a ray aimed straight at a single blob needs
when `u` is the distance still to go to the blob centre: outside the surface one step
advances by at least `1/11`, by at least `1/5` once `u >= 2`, and by at least `1/2` once
`u >= 4`.  (A device of the proofs; the program does not compute it.) -/
def march_budget (u : F) : F :=
  min (min (11 * (u - 1.2)) (8.8 + 5 * (u - 2))) (18.8 + 2 * (u - 4))

/-! ## Theorems -/

/-! ### Field model -/

theorem radius_sq : (METABLOB_RADIUS * METABLOB_RADIUS : F) = 1.44 := by
  unfold METABLOB_RADIUS; norm_num

/-- The fold of `metablob_field` started from any accumulator adds the blob terms to it. -/
theorem field_foldl_eq (px py pz : F) (blobs : List (Metablob F)) (acc : F) :
    blobs.foldl
      (fun sum b =>
        let dx := px - b.x
        let dy := py - b.y
        let dz := pz - b.z
        let dist_sq := dx * dx + dy * dy + dz * dz
        if dist_sq > 0.0001 then sum + (METABLOB_RADIUS * METABLOB_RADIUS) / dist_sq else sum)
      acc
      = acc + (blobs.map (blob_term px py pz)).sum := by
  induction blobs generalizing acc with
  | nil => simp
  | cons b bs ih =>
    simp only [List.foldl_cons, List.map_cons, List.sum_cons]
    rw [ih]
    simp only [blob_term, squared_distance, radius_sq]
    split_ifs <;> ring

theorem field_eq_sum (px py pz : F) (blobs : List (Metablob F)) :
    metablob_field px py pz blobs = (blobs.map (blob_term px py pz)).sum := by
  unfold metablob_field
  rw [field_foldl_eq]; simp

theorem field_nil (px py pz : F) : metablob_field px py pz ([] : List (Metablob F)) = 0 := rfl

theorem field_cons (px py pz : F) (b : Metablob F) (bs : List (Metablob F)) :
    metablob_field px py pz (b :: bs) = blob_term px py pz b + metablob_field px py pz bs := by
  simp [field_eq_sum]

theorem blob_term_nonneg (px py pz : F) (b : Metablob F) : 0 ≤ blob_term px py pz b := by
  unfold blob_term
  split_ifs with h
  · have h0 : (0 : F) < 0.0001 := by norm_num
    exact div_nonneg (by norm_num) (le_of_lt (lt_trans h0 h))
  · exact le_refl _

theorem field_nonneg (px py pz : F) (blobs : List (Metablob F)) :
    0 ≤ metablob_field px py pz blobs := by
  induction blobs with
  | nil => simp [field_nil]
  | cons b bs ih =>
    rw [field_cons]
    exact add_nonneg (blob_term_nonneg px py pz b) ih

/-- C1: for every query point and blob list, `metablob_field` is exactly the sum, over the
blobs whose squared distance to the point is strictly greater than `0.0001`, of
`1.44 / squared_distance`; blobs at squared distance `<= 0.0001` contribute nothing, and the
empty list gives `0`. -/
theorem C1_field_is_filtered_sum (px py pz : F) (blobs : List (Metablob F)) :
    metablob_field px py pz blobs
        = ((blobs.filter (fun b => decide (squared_distance px py pz b > 0.0001))).map
            (fun b => 1.44 / squared_distance px py pz b)).sum
      ∧ metablob_field px py pz
          (blobs.filter (fun b => decide (squared_distance px py pz b ≤ 0.0001))) = 0
      ∧ metablob_field px py pz ([] : List (Metablob F)) = 0 := by
  refine ⟨?_, ?_, rfl⟩
  · rw [field_eq_sum]
    induction blobs with
    | nil => simp
    | cons b bs ih =>
      by_cases h : squared_distance px py pz b > 0.0001
      · simp [List.filter_cons, h, blob_term, ih]
      · simp [List.filter_cons, h, blob_term, ih]
  · rw [field_eq_sum]
    induction blobs with
    | nil => simp
    | cons b bs ih =>
      by_cases h : squared_distance px py pz b ≤ 0.0001
      · have h2 : ¬ squared_distance px py pz b > 0.0001 := not_lt.mpr h
        simp [List.filter_cons, h, blob_term, h2, ih]
      · simp [List.filter_cons, h, ih]

/-! ### Monotonicity of the field -/

theorem blob_term_lt (px py pz qx qy qz : F) (b : Metablob F)
    (hp : squared_distance px py pz b > 0.0001)
    (hq : squared_distance qx qy qz b > squared_distance px py pz b) :
    blob_term qx qy qz b < blob_term px py pz b := by
  have h0 : (0 : F) < 0.0001 := by norm_num
  have hp0 : 0 < squared_distance px py pz b := lt_trans h0 hp
  have hq1 : squared_distance qx qy qz b > 0.0001 := lt_trans hp hq
  unfold blob_term
  rw [if_pos hp, if_pos hq1]
  exact div_lt_div_of_pos_left (by norm_num) hp0 hq

theorem field_le_of_farther (px py pz qx qy qz : F) (blobs : List (Metablob F))
    (hp : ∀ b ∈ blobs, squared_distance px py pz b > 0.0001)
    (hq : ∀ b ∈ blobs, squared_distance qx qy qz b > squared_distance px py pz b) :
    metablob_field qx qy qz blobs ≤ metablob_field px py pz blobs := by
  induction blobs with
  | nil => simp [field_nil]
  | cons b bs ih =>
    rw [field_cons, field_cons]
    have h1 := blob_term_lt px py pz qx qy qz b (hp b (List.mem_cons_self _ _))
      (hq b (List.mem_cons_self _ _))
    have h2 := ih (fun c hc => hp c (List.mem_cons_of_mem _ hc))
      (fun c hc => hq c (List.mem_cons_of_mem _ hc))
    linarith

/-! ### The ray marcher: what the loop guarantees -/

theorem step_pos (f : F) (hf : 0 ≤ f) : (0 : F) < 0.1 / (f + 0.1) := by
  have : (0 : F) < f + 0.1 := by
    have h : (0 : F) < 0.1 := by norm_num
    linarith
  exact div_pos (by norm_num) this

theorem sample_field_nonneg (ox oy oz dx dy dz : F) (blobs : List (Metablob F)) (s : F) :
    0 ≤ sample_field ox oy oz dx dy dz blobs s :=
  field_nonneg _ _ _ _

/-- One iteration of the loop, with the field written as `sample_field`. -/
theorem ray_march_loop_succ (ox oy oz dx dy dz : F) (blobs : List (Metablob F))
    (n : Nat) (t : F) :
    ray_march_loop ox oy oz dx dy dz blobs (n + 1) t
      = if sample_field ox oy oz dx dy dz blobs t ≥ THRESHOLD then
          ⟨t, some (ox + dx * t, oy + dy * t, oz + dz * t), [t]⟩
        else if t + 0.1 / (sample_field ox oy oz dx dy dz blobs t + 0.1) > MAX_DISTANCE then
          ⟨-1.0, none, [t]⟩
        else
          ⟨(ray_march_loop ox oy oz dx dy dz blobs n
              (t + 0.1 / (sample_field ox oy oz dx dy dz blobs t + 0.1))).ret,
           (ray_march_loop ox oy oz dx dy dz blobs n
              (t + 0.1 / (sample_field ox oy oz dx dy dz blobs t + 0.1))).hit,
           t :: (ray_march_loop ox oy oz dx dy dz blobs n
              (t + 0.1 / (sample_field ox oy oz dx dy dz blobs t + 0.1))).evals⟩ := by
  simp only [ray_march_loop, sample_field]

theorem ray_march_loop_zero (ox oy oz dx dy dz : F) (blobs : List (Metablob F)) (t : F) :
    ray_march_loop ox oy oz dx dy dz blobs 0 t = ⟨-1, none, []⟩ := by
  simp only [ray_march_loop]
  norm_num

/-- Everything the loop of `ray_march` guarantees, for any number of remaining iterations
and any current `t`. -/
theorem ray_march_loop_spec (ox oy oz dx dy dz : F) (blobs : List (Metablob F))
    (n : Nat) (t : F) :
    (ray_march_loop ox oy oz dx dy dz blobs n t).evals.length ≤ n
      ∧ (∀ s ∈ (ray_march_loop ox oy oz dx dy dz blobs n t).evals, t ≤ s)
      ∧ (((ray_march_loop ox oy oz dx dy dz blobs n t).ret = -1
            ∧ (ray_march_loop ox oy oz dx dy dz blobs n t).hit = none
            ∧ (∀ s ∈ (ray_march_loop ox oy oz dx dy dz blobs n t).evals,
                sample_field ox oy oz dx dy dz blobs s < THRESHOLD)
            ∧ ((ray_march_loop ox oy oz dx dy dz blobs n t).evals.length = n
                ∨ ∃ s, (ray_march_loop ox oy oz dx dy dz blobs n t).evals.getLast? = some s
                    ∧ MAX_DISTANCE < s + 0.1 / (sample_field ox oy oz dx dy dz blobs s + 0.1)))
          ∨ (t ≤ (ray_march_loop ox oy oz dx dy dz blobs n t).ret
            ∧ (ray_march_loop ox oy oz dx dy dz blobs n t).hit
                = some (ox + dx * (ray_march_loop ox oy oz dx dy dz blobs n t).ret,
                        oy + dy * (ray_march_loop ox oy oz dx dy dz blobs n t).ret,
                        oz + dz * (ray_march_loop ox oy oz dx dy dz blobs n t).ret)
            ∧ THRESHOLD ≤ sample_field ox oy oz dx dy dz blobs
                (ray_march_loop ox oy oz dx dy dz blobs n t).ret
            ∧ ∃ earlier, (ray_march_loop ox oy oz dx dy dz blobs n t).evals
                  = earlier ++ [(ray_march_loop ox oy oz dx dy dz blobs n t).ret]
                ∧ ∀ s ∈ earlier, s < (ray_march_loop ox oy oz dx dy dz blobs n t).ret
                    ∧ sample_field ox oy oz dx dy dz blobs s < THRESHOLD)) := by
  induction n generalizing t with
  | zero =>
    rw [ray_march_loop_zero]
    refine ⟨by simp, by simp, Or.inl ?_⟩
    simp
  | succ n ih =>
    by_cases hhit : sample_field ox oy oz dx dy dz blobs t ≥ THRESHOLD
    · have hr : ray_march_loop ox oy oz dx dy dz blobs (n + 1) t
          = ⟨t, some (ox + dx * t, oy + dy * t, oz + dz * t), [t]⟩ := by
        rw [ray_march_loop_succ, if_pos hhit]
      rw [hr]
      refine ⟨by simp, by simp, Or.inr ⟨le_refl _, rfl, hhit, [], by simp, by simp⟩⟩
    · have hlt : sample_field ox oy oz dx dy dz blobs t < THRESHOLD := not_le.mp hhit
      have hstep := step_pos _ (sample_field_nonneg ox oy oz dx dy dz blobs t)
      by_cases hfar : t + 0.1 / (sample_field ox oy oz dx dy dz blobs t + 0.1) > MAX_DISTANCE
      · have hr : ray_march_loop ox oy oz dx dy dz blobs (n + 1) t = ⟨-1.0, none, [t]⟩ := by
          rw [ray_march_loop_succ, if_neg hhit, if_pos hfar]
        rw [hr]
        refine ⟨by simp, by simp, Or.inl ⟨by norm_num, rfl, by simpa using hlt, Or.inr ?_⟩⟩
        exact ⟨t, by simp, hfar⟩
      · have hr : ray_march_loop ox oy oz dx dy dz blobs (n + 1) t
            = ⟨(ray_march_loop ox oy oz dx dy dz blobs n
                  (t + 0.1 / (sample_field ox oy oz dx dy dz blobs t + 0.1))).ret,
               (ray_march_loop ox oy oz dx dy dz blobs n
                  (t + 0.1 / (sample_field ox oy oz dx dy dz blobs t + 0.1))).hit,
               t :: (ray_march_loop ox oy oz dx dy dz blobs n
                  (t + 0.1 / (sample_field ox oy oz dx dy dz blobs t + 0.1))).evals⟩ := by
          rw [ray_march_loop_succ, if_neg hhit, if_neg hfar]
        obtain ⟨hlen, hge, hcase⟩ := ih (t + 0.1 / (sample_field ox oy oz dx dy dz blobs t + 0.1))
        rw [hr]
        refine ⟨by simpa using hlen, ?_, ?_⟩
        · intro s hs
          simp only [List.mem_cons] at hs
          rcases hs with rfl | hs
          · exact le_refl _
          · exact le_of_lt (lt_of_lt_of_le (by linarith) (hge s hs))
        · rcases hcase with ⟨h1, h2, h3, h4⟩ | ⟨h1, h2, h3, earlier, h4, h5⟩
          · refine Or.inl ⟨h1, h2, ?_, ?_⟩
            · intro s hs
              simp only [List.mem_cons] at hs
              rcases hs with rfl | hs
              · exact hlt
              · exact h3 s hs
            · rcases h4 with h4 | ⟨s, hs, hs2⟩
              · exact Or.inl (by simp [h4])
              · refine Or.inr ⟨s, ?_, hs2⟩
                simp only
                rw [List.getLast?_cons, hs]
                rfl
          · refine Or.inr ⟨by linarith, h2, h3, t :: earlier, by simp [h4], ?_⟩
            intro s hs
            simp only [List.mem_cons] at hs
            rcases hs with rfl | hs
            · exact ⟨by linarith, hlt⟩
            · exact h5 s hs

/-- C3: whenever `ray_march` returns something other than `-1`, the stored hit point is
`origin + direction * t` for the returned `t`, the field there is at least `THRESHOLD`, and
the evaluations made are some earlier samples followed by `t`, every earlier sample having
a smaller parameter and a field value below `THRESHOLD`. -/
theorem C3_hit_is_first_sampled_crossing (ox oy oz dx dy dz : F) (blobs : List (Metablob F))
    (h : (ray_march ox oy oz dx dy dz blobs).ret ≠ -1) :
    (ray_march ox oy oz dx dy dz blobs).hit
        = some (ox + dx * (ray_march ox oy oz dx dy dz blobs).ret,
                oy + dy * (ray_march ox oy oz dx dy dz blobs).ret,
                oz + dz * (ray_march ox oy oz dx dy dz blobs).ret)
      ∧ THRESHOLD ≤ metablob_field
          (ox + dx * (ray_march ox oy oz dx dy dz blobs).ret)
          (oy + dy * (ray_march ox oy oz dx dy dz blobs).ret)
          (oz + dz * (ray_march ox oy oz dx dy dz blobs).ret) blobs
      ∧ ∃ earlier, (ray_march ox oy oz dx dy dz blobs).evals
            = earlier ++ [(ray_march ox oy oz dx dy dz blobs).ret]
          ∧ ∀ s ∈ earlier, s < (ray_march ox oy oz dx dy dz blobs).ret
              ∧ metablob_field (ox + dx * s) (oy + dy * s) (oz + dz * s) blobs < THRESHOLD := by
  unfold ray_march at h ⊢
  obtain ⟨-, -, hcase⟩ := ray_march_loop_spec ox oy oz dx dy dz blobs MAX_STEPS 0.0
  rcases hcase with ⟨h1, -⟩ | ⟨-, h2, h3, h4⟩
  · exact absurd h1 h
  · exact ⟨h2, h3, h4⟩

/-- Witness for C3: the ray from `(0, 0, -13/10)` along `+z` toward one blob at the origin
misses at `t = 0` and hits at the second sample. -/
theorem C3_hit_is_first_sampled_crossing_witness :
    (ray_march (0 : ℚ) 0 (-1.3) 0 0 1 [⟨0, 0, 0⟩]).ret ≠ -1
      ∧ (ray_march (0 : ℚ) 0 (-1.3) 0 0 1 [⟨0, 0, 0⟩]).evals.length = 2
      ∧ ∃ earlier, (ray_march (0 : ℚ) 0 (-1.3) 0 0 1 [⟨0, 0, 0⟩]).evals
            = earlier ++ [(ray_march (0 : ℚ) 0 (-1.3) 0 0 1 [⟨0, 0, 0⟩]).ret]
          ∧ ∀ s ∈ earlier, s < (ray_march (0 : ℚ) 0 (-1.3) 0 0 1 [⟨0, 0, 0⟩]).ret
              ∧ metablob_field (0 + 0 * s) (0 + 0 * s) (-1.3 + 1 * s) [⟨0, 0, 0⟩]
                  < (THRESHOLD : ℚ) :=
  have e : ray_march (0 : ℚ) 0 (-1.3) 0 0 1 [⟨0, 0, 0⟩]
      = ⟨169 / 1609, some (0 + 0 * (169 / 1609), 0 + 0 * (169 / 1609), -1.3 + 1 * (169 / 1609)),
          [0.0, 169 / 1609]⟩ := by
    have h0 : sample_field (0 : ℚ) 0 (-1.3) 0 0 1 [⟨0, 0, 0⟩] 0.0 = 144 / 169 := by
      norm_num [sample_field, metablob_field, METABLOB_RADIUS]
    have h1 : sample_field (0 : ℚ) 0 (-1.3) 0 0 1 [⟨0, 0, 0⟩] (169 / 1609)
        = 41422096 / 41075281 := by
      norm_num [sample_field, metablob_field, METABLOB_RADIUS]
    have ht : (0.0 : ℚ) + 0.1 / (144 / 169 + 0.1) = 169 / 1609 := by norm_num
    unfold ray_march
    rw [show MAX_STEPS = 62 + 1 + 1 from rfl, ray_march_loop_succ, h0,
      if_neg (by norm_num [THRESHOLD]), if_neg (by norm_num [MAX_DISTANCE]), ht,
      ray_march_loop_succ, h1, if_pos (by norm_num [THRESHOLD])]
  have h : (ray_march (0 : ℚ) 0 (-1.3) 0 0 1 [⟨0, 0, 0⟩]).ret ≠ -1 := by
    rw [e]; norm_num
  ⟨h, by rw [e]; rfl, (C3_hit_is_first_sampled_crossing (0 : ℚ) 0 (-1.3) 0 0 1 [⟨0, 0, 0⟩] h).2.2⟩

/-- C6: `ray_march` is a total function that evaluates the field at most `MAX_STEPS` (64)
times; it returns `-1` exactly when every evaluated sample was below `THRESHOLD`, and in
that case either all 64 iterations were used or the advanced `t` exceeded `MAX_DISTANCE`
right after the last sample. -/
theorem C6_terminates_and_nohit_iff (ox oy oz dx dy dz : F) (blobs : List (Metablob F)) :
    (ray_march ox oy oz dx dy dz blobs).evals.length ≤ 64
      ∧ ((ray_march ox oy oz dx dy dz blobs).ret = -1
          ↔ ∀ s ∈ (ray_march ox oy oz dx dy dz blobs).evals,
              metablob_field (ox + dx * s) (oy + dy * s) (oz + dz * s) blobs < THRESHOLD)
      ∧ ((ray_march ox oy oz dx dy dz blobs).ret = -1
          ↔ ((∀ s ∈ (ray_march ox oy oz dx dy dz blobs).evals,
                metablob_field (ox + dx * s) (oy + dy * s) (oz + dz * s) blobs < THRESHOLD)
              ∧ ((ray_march ox oy oz dx dy dz blobs).evals.length = 64
                ∨ ∃ s, (ray_march ox oy oz dx dy dz blobs).evals.getLast? = some s
                    ∧ s + 0.1 / (metablob_field (ox + dx * s) (oy + dy * s) (oz + dz * s) blobs
                        + 0.1) > MAX_DISTANCE))) := by
  unfold ray_march
  obtain ⟨hlen, hge, hcase⟩ := ray_march_loop_spec ox oy oz dx dy dz blobs MAX_STEPS 0.0
  have h0 : (0 : F) ≤ 0.0 := by norm_num
  have key : (ray_march_loop ox oy oz dx dy dz blobs MAX_STEPS 0.0).ret = -1
      ↔ ∀ s ∈ (ray_march_loop ox oy oz dx dy dz blobs MAX_STEPS 0.0).evals,
          metablob_field (ox + dx * s) (oy + dy * s) (oz + dz * s) blobs < THRESHOLD := by
    rcases hcase with ⟨h1, -, h3, -⟩ | ⟨h1, -, h3, earlier, h4, -⟩
    · exact ⟨fun _ => h3, fun _ => h1⟩
    · constructor
      · intro hm
        rw [hm] at h1
        exact absurd (le_trans h0 h1) (by norm_num)
      · intro hall
        have hmem : (ray_march_loop ox oy oz dx dy dz blobs MAX_STEPS 0.0).ret
            ∈ (ray_march_loop ox oy oz dx dy dz blobs MAX_STEPS 0.0).evals := by
          rw [h4]; simp
        exact absurd h3 (not_le.mpr (hall _ hmem))
  refine ⟨hlen, key, ?_⟩
  constructor
  · intro hm
    refine ⟨key.mp hm, ?_⟩
    rcases hcase with ⟨-, -, -, h4⟩ | ⟨h1, -, -, -⟩
    · exact h4
    · rw [hm] at h1
      exact absurd (le_trans h0 h1) (by norm_num)
  · intro hall
    exact key.mpr hall.1

/-! ### One blob straight ahead -/

/-- Along a unit ray aimed at a blob at distance `D`, the squared distance from the sample at
parameter `s` to the blob is `(D - s)²`. -/
theorem squared_distance_ahead (ox oy oz dx dy dz D s : F) (b : Metablob F)
    (hd : dx * dx + dy * dy + dz * dz = 1)
    (hx : b.x = ox + dx * D) (hy : b.y = oy + dy * D) (hz : b.z = oz + dz * D) :
    squared_distance (ox + dx * s) (oy + dy * s) (oz + dz * s) b = (D - s) * (D - s) := by
  unfold squared_distance
  rw [hx, hy, hz]
  linear_combination ((D - s) * (D - s)) * hd

theorem sample_field_ahead (ox oy oz dx dy dz D s : F) (b : Metablob F)
    (hd : dx * dx + dy * dy + dz * dz = 1)
    (hx : b.x = ox + dx * D) (hy : b.y = oy + dy * D) (hz : b.z = oz + dz * D)
    (hu : (D - s) * (D - s) > 0.0001) :
    sample_field ox oy oz dx dy dz [b] s = 1.44 / ((D - s) * (D - s)) := by
  unfold sample_field
  rw [field_cons, field_nil, add_zero]
  unfold blob_term
  rw [squared_distance_ahead ox oy oz dx dy dz D s b hd hx hy hz, if_pos hu]

/-- The adaptive step taken at remaining distance `u` from a single blob. -/
theorem step_ahead (u : F) (hu : 0 < u) :
    (0.1 : F) / (1.44 / (u * u) + 0.1) = u * u / (14.4 + u * u) := by
  have h1 : u * u ≠ 0 := ne_of_gt (mul_pos hu hu)
  have h2 : (0 : F) < 14.4 + u * u := by
    have := mul_pos hu hu
    norm_num
    linarith
  have h3 : (1.44 : F) / (u * u) + 0.1 ≠ 0 := by
    have : (0 : F) < 1.44 / (u * u) := div_pos (by norm_num) (mul_pos hu hu)
    have h4 : (0 : F) < 0.1 := by norm_num
    exact ne_of_gt (by linarith)
  rw [div_eq_div_iff h3 (ne_of_gt h2)]
  field_simp
  ring

theorem march_budget_step (u : F) (hu : 1.2 < u) :
    march_budget (u - u * u / (14.4 + u * u)) + 1 ≤ march_budget u := by
  have hu0 : (0 : F) < u := lt_trans (by norm_num) hu
  have hden : (0 : F) < 14.4 + u * u := by
    have := mul_pos hu0 hu0
    have h : (0 : F) < 14.4 := by norm_num
    linarith
  unfold march_budget
  rcases le_total u 2 with h2 | h2
  · have hs : (1 : F) / 11 ≤ u * u / (14.4 + u * u) := by
      rw [div_le_div_iff₀ (by norm_num) hden]
      nlinarith
    have hP : 11 * (u - 1.2)
        ≤ min (min (11 * (u - 1.2)) (8.8 + 5 * (u - 2))) (18.8 + 2 * (u - 4)) :=
      le_min (le_min le_rfl (by linarith)) (by linarith)
    have hP' : min (min (11 * (u - u * u / (14.4 + u * u) - 1.2))
          (8.8 + 5 * (u - u * u / (14.4 + u * u) - 2)))
          (18.8 + 2 * (u - u * u / (14.4 + u * u) - 4))
        ≤ 11 * (u - u * u / (14.4 + u * u) - 1.2) :=
      le_trans (min_le_left _ _) (min_le_left _ _)
    linarith
  · rcases le_total u 4 with h4 | h4
    · have hs : (1 : F) / 5 ≤ u * u / (14.4 + u * u) := by
        rw [div_le_div_iff₀ (by norm_num) hden]
        nlinarith
      have hP : 8.8 + 5 * (u - 2)
          ≤ min (min (11 * (u - 1.2)) (8.8 + 5 * (u - 2))) (18.8 + 2 * (u - 4)) :=
        le_min (le_min (by linarith) le_rfl) (by linarith)
      have hP' : min (min (11 * (u - u * u / (14.4 + u * u) - 1.2))
            (8.8 + 5 * (u - u * u / (14.4 + u * u) - 2)))
            (18.8 + 2 * (u - u * u / (14.4 + u * u) - 4))
          ≤ 8.8 + 5 * (u - u * u / (14.4 + u * u) - 2) :=
        le_trans (min_le_left _ _) (min_le_right _ _)
      linarith
    · have hs : (1 : F) / 2 ≤ u * u / (14.4 + u * u) := by
        rw [div_le_div_iff₀ (by norm_num) hden]
        nlinarith
      have hP : 18.8 + 2 * (u - 4)
          ≤ min (min (11 * (u - 1.2)) (8.8 + 5 * (u - 2))) (18.8 + 2 * (u - 4)) :=
        le_min (le_min (by linarith) (by linarith)) le_rfl
      have hP' : min (min (11 * (u - u * u / (14.4 + u * u) - 1.2))
            (8.8 + 5 * (u - u * u / (14.4 + u * u) - 2)))
            (18.8 + 2 * (u - u * u / (14.4 + u * u) - 4))
          ≤ 18.8 + 2 * (u - u * u / (14.4 + u * u) - 4) :=
        min_le_right _ _
      linarith

theorem march_budget_pos (u : F) (hu : 1.2 < u) : 0 < march_budget u := by
  unfold march_budget
  exact lt_min (lt_min (by linarith) (by linarith)) (by linarith)

/-- The remaining distance after a step taken outside the surface stays above `1.1`. -/
theorem remaining_after_step (u : F) (hu : 1.2 < u) :
    1.1 < u - u * u / (14.4 + u * u) := by
  have hu0 : (0 : F) < u := lt_trans (by norm_num) hu
  have hden : (0 : F) < 14.4 + u * u := by
    have := mul_pos hu0 hu0
    have h : (0 : F) < 14.4 := by norm_num
    linarith
  have h : u * u / (14.4 + u * u) < u - 1.1 := by
    rw [div_lt_iff₀ hden]
    have hv : 0 < u - 1.2 := by linarith
    nlinarith [mul_pos hv hv, mul_pos (mul_pos hv hv) hv]
  linarith

/-- Started at `t >= 0`, the loop returns `-1` exactly when no sample it evaluated reached
`THRESHOLD`. -/
theorem ray_march_loop_nohit_iff (ox oy oz dx dy dz : F) (blobs : List (Metablob F))
    (n : Nat) (t : F) (ht : 0 ≤ t) :
    (ray_march_loop ox oy oz dx dy dz blobs n t).ret = -1
      ↔ ∀ s ∈ (ray_march_loop ox oy oz dx dy dz blobs n t).evals,
          sample_field ox oy oz dx dy dz blobs s < THRESHOLD := by
  obtain ⟨-, -, hcase⟩ := ray_march_loop_spec ox oy oz dx dy dz blobs n t
  rcases hcase with ⟨h1, -, h3, -⟩ | ⟨h1, -, h3, earlier, h4, -⟩
  · exact ⟨fun _ => h3, fun _ => h1⟩
  · constructor
    · intro hm
      rw [hm] at h1
      exact absurd (le_trans ht h1) (by norm_num)
    · intro hall
      have hmem : (ray_march_loop ox oy oz dx dy dz blobs n t).ret
          ∈ (ray_march_loop ox oy oz dx dy dz blobs n t).evals := by
        rw [h4]; simp
      exact absurd h3 (not_le.mpr (hall _ hmem))

/-- Every sample is taken at a parameter that has not exceeded `MAX_DISTANCE`. -/
theorem ray_march_loop_evals_le (ox oy oz dx dy dz : F) (blobs : List (Metablob F))
    (n : Nat) (t : F) (ht : t ≤ MAX_DISTANCE) :
    ∀ s ∈ (ray_march_loop ox oy oz dx dy dz blobs n t).evals, s ≤ MAX_DISTANCE := by
  induction n generalizing t with
  | zero =>
    rw [ray_march_loop_zero]
    simp
  | succ n ih =>
    rw [ray_march_loop_succ]
    split_ifs with h1 h2
    · simpa using ht
    · simpa using ht
    · intro s hs
      simp only [List.mem_cons] at hs
      rcases hs with rfl | hs
      · exact ht
      · exact ih _ (not_lt.mp h2) s hs

/-- A unit ray aimed at a single blob whose centre is `D <= 21.1` away reaches the surface:
started at a parameter `t` with more than `1.1` still to go and with enough iterations left
for `march_budget`, the loop evaluates a sample whose field is at least `THRESHOLD`. -/
theorem ray_march_loop_reaches_ahead (ox oy oz dx dy dz D : F) (b : Metablob F)
    (hd : dx * dx + dy * dy + dz * dz = 1)
    (hx : b.x = ox + dx * D) (hy : b.y = oy + dy * D) (hz : b.z = oz + dz * D)
    (hD : D ≤ 21.1) (n : Nat) (t : F) (hu : 1.1 < D - t) (hn : 1 ≤ n)
    (hb : march_budget (D - t) + 1 ≤ (n : F)) :
    ∃ s ∈ (ray_march_loop ox oy oz dx dy dz [b] n t).evals,
      THRESHOLD ≤ sample_field ox oy oz dx dy dz [b] s := by
  induction n generalizing t with
  | zero => exact absurd hn (by norm_num)
  | succ n ih =>
    have hu0 : 0 < D - t := lt_trans (by norm_num) hu
    have hsq : (D - t) * (D - t) > 0.0001 := by nlinarith
    have hf := sample_field_ahead ox oy oz dx dy dz D t b hd hx hy hz hsq
    rw [ray_march_loop_succ]
    rcases le_or_lt (D - t) 1.2 with hnear | hout
    · have hhit : sample_field ox oy oz dx dy dz [b] t ≥ THRESHOLD := by
        rw [hf, ge_iff_le, THRESHOLD, le_div_iff₀ (mul_pos hu0 hu0)]
        nlinarith
      rw [if_pos hhit]
      exact ⟨t, by simp, hhit⟩
    · have hmiss : ¬ sample_field ox oy oz dx dy dz [b] t ≥ THRESHOLD := by
        rw [hf, ge_iff_le, not_le, THRESHOLD, div_lt_iff₀ (mul_pos hu0 hu0)]
        nlinarith
      have hstep : t + 0.1 / (sample_field ox oy oz dx dy dz [b] t + 0.1)
          = t + (D - t) * (D - t) / (14.4 + (D - t) * (D - t)) := by
        rw [hf, step_ahead _ hu0]
      have hrem := remaining_after_step (D - t) hout
      have hbud := march_budget_step (D - t) hout
      have hpos := march_budget_pos (D - t) hout
      have hnear : ¬ t + 0.1 / (sample_field ox oy oz dx dy dz [b] t + 0.1) > MAX_DISTANCE := by
        rw [hstep, not_lt, MAX_DISTANCE]
        have h211 : (21.1 : F) = 20.0 + 1.1 := by norm_num
        rw [h211] at hD
        linarith
      rw [if_neg hmiss, if_neg hnear, hstep]
      have hcast : ((n + 1 : ℕ) : F) = (n : F) + 1 := by push_cast; ring
      rw [hcast] at hb
      have hn1 : 1 ≤ n := by
        have : (0 : F) < (n : F) := by linarith
        exact Nat.one_le_iff_ne_zero.mpr (fun h0 => by rw [h0] at this; simp at this)
      have hu' : 1.1 < D - (t + (D - t) * (D - t) / (14.4 + (D - t) * (D - t))) := by
        linarith
      have hb' : march_budget (D - (t + (D - t) * (D - t) / (14.4 + (D - t) * (D - t)))) + 1
          ≤ (n : F) := by
        have e : D - (t + (D - t) * (D - t) / (14.4 + (D - t) * (D - t)))
            = D - t - (D - t) * (D - t) / (14.4 + (D - t) * (D - t)) := by ring
        rw [e]
        linarith
      obtain ⟨s, hs, hs2⟩ := ih _ hu' hn1 hb'
      exact ⟨s, by simp [hs], hs2⟩

/-- A unit ray aimed at a single blob whose centre is between `1.1` and `21.1` away does
not return `-1`. -/
theorem ray_march_hits_ahead (ox oy oz dx dy dz D : F) (b : Metablob F)
    (hd : dx * dx + dy * dy + dz * dz = 1)
    (hx : b.x = ox + dx * D) (hy : b.y = oy + dy * D) (hz : b.z = oz + dz * D)
    (hlo : 1.1 < D) (hD : D ≤ 21.1) :
    (ray_march ox oy oz dx dy dz [b]).ret ≠ -1 := by
  unfold ray_march
  have h0 : (0.0 : F) = 0 := by norm_num
  have hb : march_budget (D - 0.0) + 1 ≤ ((MAX_STEPS : ℕ) : F) := by
    have h1 : march_budget (D - 0.0) ≤ 18.8 + 2 * (D - 0.0 - 4) := min_le_right _ _
    have h2 : ((MAX_STEPS : ℕ) : F) = 64 := by norm_num [MAX_STEPS]
    have h3 : (21.1 : F) = 21 + 0.1 := by norm_num
    have h4 : (18.8 : F) = 18 + 0.8 := by norm_num
    have h5 : (0.8 : F) + 2 * 0.1 = 1 := by norm_num
    rw [h2]
    rw [h3] at hD
    rw [h4, h0] at h1
    linarith
  obtain ⟨s, hs, hs2⟩ := ray_march_loop_reaches_ahead ox oy oz dx dy dz D b hd hx hy hz hD
    MAX_STEPS 0.0 (by rw [h0]; linarith) (by norm_num [MAX_STEPS]) hb
  intro hm
  have hall := (ray_march_loop_nohit_iff ox oy oz dx dy dz [b] MAX_STEPS 0.0
    (by norm_num)).mp hm
  exact absurd hs2 (not_le.mpr (hall s hs))

/-- C4 (as amended): with a single blob whose centre is farther than
`MAX_DISTANCE + METABLOB_RADIUS` (21.2) from the origin of a unit ray aimed straight at it,
`ray_march` returns `-1`. -/
theorem C4_single_blob_beyond_reach_nohit (ox oy oz dx dy dz D : F) (b : Metablob F)
    (hd : dx * dx + dy * dy + dz * dz = 1)
    (hx : b.x = ox + dx * D) (hy : b.y = oy + dy * D) (hz : b.z = oz + dz * D)
    (hD : MAX_DISTANCE + METABLOB_RADIUS < D) :
    (ray_march ox oy oz dx dy dz [b]).ret = -1 := by
  unfold ray_march
  have h0 : (0.0 : F) = 0 := by norm_num
  rw [ray_march_loop_nohit_iff ox oy oz dx dy dz [b] MAX_STEPS 0.0 (by norm_num)]
  intro s hs
  have hs0 : (0.0 : F) ≤ s := (ray_march_loop_spec ox oy oz dx dy dz [b] MAX_STEPS 0.0).2.1 s hs
  have hs1 : s ≤ MAX_DISTANCE :=
    ray_march_loop_evals_le ox oy oz dx dy dz [b] MAX_STEPS 0.0 (by norm_num [MAX_DISTANCE]) s hs
  have hu : 1.2 < D - s := by
    unfold METABLOB_RADIUS at hD
    linarith
  have hu0 : 0 < D - s := lt_trans (by norm_num) hu
  have hsq : (D - s) * (D - s) > 0.0001 := by nlinarith
  rw [sample_field_ahead ox oy oz dx dy dz D s b hd hx hy hz hsq, THRESHOLD,
    div_lt_iff₀ (mul_pos hu0 hu0)]
  nlinarith

/-- Witness for C4 (as amended): the ray from `(0, 0, -22)` along `+z` toward one blob at
the origin. -/
theorem C4_single_blob_beyond_reach_nohit_witness :
    (MAX_DISTANCE + METABLOB_RADIUS : ℚ) < 22
      ∧ (ray_march (0 : ℚ) 0 (-22) 0 0 1 [⟨0, 0, 0⟩]).ret = -1 :=
  ⟨by norm_num [MAX_DISTANCE, METABLOB_RADIUS],
    C4_single_blob_beyond_reach_nohit (0 : ℚ) 0 (-22) 0 0 1 22 ⟨0, 0, 0⟩ (by norm_num)
      (by norm_num) (by norm_num) (by norm_num)
      (by norm_num [MAX_DISTANCE, METABLOB_RADIUS])⟩

/-- C4 as stated fails: the origin `(0, 0, -21)` is at distance `21 > MAX_DISTANCE` from the
single blob at `(0, 0, 0)`, the unit direction `(0, 0, 1)` points straight at it, and
`ray_march` does not return `-1` (the surface, `1.2` in front of the centre, is met at a
ray parameter below `20`). -/
theorem C4_counterexample :
    squared_distance (0 : ℚ) 0 (-21) ⟨0, 0, 0⟩ > MAX_DISTANCE * MAX_DISTANCE
      ∧ ((0 : ℚ) * 0 + 0 * 0 + 1 * 1 = 1)
      ∧ ((0 : ℚ) + 0 * 21 = 0 ∧ (0 : ℚ) + 0 * 21 = 0 ∧ (-21 : ℚ) + 1 * 21 = 0)
      ∧ (ray_march (0 : ℚ) 0 (-21) 0 0 1 [⟨0, 0, 0⟩]).ret ≠ -1 :=
  ⟨by norm_num [squared_distance, MAX_DISTANCE], by norm_num,
    ⟨by norm_num, by norm_num, by norm_num⟩,
    ray_march_hits_ahead (0 : ℚ) 0 (-21) 0 0 1 21 ⟨0, 0, 0⟩ (by norm_num)
      (by norm_num) (by norm_num) (by norm_num) (by norm_num) (by norm_num)⟩

theorem norm_sq_nonneg (v : F × F × F) : 0 ≤ norm_sq v := by
  unfold norm_sq
  nlinarith [mul_self_nonneg v.1, mul_self_nonneg v.2.1, mul_self_nonneg v.2.2]

/-- Dividing a vector by a number whose square is the vector's `norm_sq` gives a vector of
`norm_sq` one. -/
theorem norm_sq_div (a b c len : F) (hpos : 0 < len)
    (hlen : len * len = a * a + b * b + c * c) :
    norm_sq (a / len, b / len, c / len) = 1 := by
  have hne : len ≠ 0 := ne_of_gt hpos
  unfold norm_sq
  simp only
  field_simp
  linarith

/-- C7: the raw vector of `calculate_normal` is the forward difference of the field with the
one baseline `field(p)` and `eps = 0.001`; the result is that vector divided by its length
(`sqrtf` of the sum of its squares) when the length exceeds `0.0001`, and the raw vector
itself otherwise. -/
theorem C7_normal_is_normalised_forward_difference (sqrtf : F → F) (px py pz : F)
    (blobs : List (Metablob F)) :
    calculate_normal sqrtf px py pz blobs
      = if sqrtf (norm_sq (forward_difference px py pz blobs)) > 0.0001 then
          ((forward_difference px py pz blobs).1
              / sqrtf (norm_sq (forward_difference px py pz blobs)),
           (forward_difference px py pz blobs).2.1
              / sqrtf (norm_sq (forward_difference px py pz blobs)),
           (forward_difference px py pz blobs).2.2
              / sqrtf (norm_sq (forward_difference px py pz blobs)))
        else forward_difference px py pz blobs := by
  simp only [calculate_normal, forward_difference, norm_sq, EPSILON]

/-- C8: when `sqrtf` returns the square root of the raw vector's sum of squares and that
length exceeds `0.0001`, the normal returned by `calculate_normal` has unit length:
`nx² + ny² + nz² = 1`. -/
theorem C8_normal_unit_length (sqrtf : F → F) (px py pz : F) (blobs : List (Metablob F))
    (hs : sqrtf (norm_sq (forward_difference px py pz blobs))
        * sqrtf (norm_sq (forward_difference px py pz blobs))
        = norm_sq (forward_difference px py pz blobs))
    (hlen : sqrtf (norm_sq (forward_difference px py pz blobs)) > 0.0001) :
    norm_sq (calculate_normal sqrtf px py pz blobs) = 1 := by
  have hpos : 0 < sqrtf (norm_sq (forward_difference px py pz blobs)) :=
    lt_trans (by norm_num) hlen
  have e : calculate_normal sqrtf px py pz blobs
      = ((forward_difference px py pz blobs).1
            / sqrtf (norm_sq (forward_difference px py pz blobs)),
         (forward_difference px py pz blobs).2.1
            / sqrtf (norm_sq (forward_difference px py pz blobs)),
         (forward_difference px py pz blobs).2.2
            / sqrtf (norm_sq (forward_difference px py pz blobs))) := by
    simp only [calculate_normal, forward_difference, norm_sq, EPSILON] at hlen ⊢
    rw [if_pos hlen]
  rw [e]
  exact norm_sq_div _ _ _ _ hpos hs

/-- Witness for C8: over the reals with the real square root, one blob at the origin and the
point `(1, 0, 0)`. -/
theorem C8_normal_unit_length_witness :
    Real.sqrt (norm_sq (forward_difference (1 : ℝ) 0 0 [⟨0, 0, 0⟩])) > 0.0001
      ∧ norm_sq (calculate_normal Real.sqrt (1 : ℝ) 0 0 [⟨0, 0, 0⟩]) = 1 :=
  have hlen : Real.sqrt (norm_sq (forward_difference (1 : ℝ) 0 0 [⟨0, 0, 0⟩])) > 0.0001 := by
    rw [gt_iff_lt, Real.lt_sqrt (by norm_num)]
    norm_num [norm_sq, forward_difference, metablob_field, METABLOB_RADIUS]
  ⟨hlen, C8_normal_unit_length Real.sqrt (1 : ℝ) 0 0 [⟨0, 0, 0⟩]
    (Real.mul_self_sqrt (norm_sq_nonneg _)) hlen⟩

/-! ### Camera -/

theorem c_int_cast_of_nonneg [FloorRing F] (x : F) (hx : 0 ≤ x) : c_int_cast x = ⌊x⌋ := by
  unfold c_int_cast
  rw [if_pos hx]

/-- For a non-negative height the vertical centre is the integer quotient `12 * H / 22`. -/
theorem Y_CENTER_eq [FloorRing F] (H : Int) (hH : 0 ≤ H) : Y_CENTER F H = 12 * H / 22 := by
  unfold Y_CENTER BASE_HEIGHT
  have hHF : (0 : F) ≤ (H : F) := by exact_mod_cast hH
  have hx : (0 : F) ≤ 12.0 * (H : F) / 22.0 := by
    apply div_nonneg
    · exact mul_nonneg (by norm_num) hHF
    · norm_num
  rw [c_int_cast_of_nonneg _ hx, Int.floor_eq_iff]
  have hdiv : (12 * H) % 22 + 22 * (12 * H / 22) = 12 * H := Int.emod_add_ediv (12 * H) 22
  have hr0 : 0 ≤ (12 * H) % 22 := Int.emod_nonneg _ (by norm_num)
  have hr1 : (12 * H) % 22 < 22 := Int.emod_lt_of_pos _ (by norm_num)
  have hdivF : (((12 * H) % 22 : Int) : F) + 22 * ((12 * H / 22 : Int) : F) = 12 * (H : F) := by
    exact_mod_cast hdiv
  have hr0F : (0 : F) ≤ (((12 * H) % 22 : Int) : F) := by exact_mod_cast hr0
  have hr1F : (((12 * H) % 22 : Int) : F) < 22 := by exact_mod_cast hr1
  have e : (12.0 : F) * (H : F) / 22.0 = (12 * (H : F)) / 22 := by norm_num
  rw [e]
  constructor
  · rw [le_div_iff₀ (by norm_num)]
    linarith
  · rw [div_lt_iff₀ (by norm_num)]
    linarith

theorem scale_factor_pos (W H : Int) (hW : 0 < W) (hH : 0 < H) :
    (0 : F) < scale_factor W H := by
  unfold scale_factor BASE_WIDTH BASE_HEIGHT
  have hWF : (0 : F) < (W : F) := by exact_mod_cast hW
  have hHF : (0 : F) < (H : F) := by exact_mod_cast hH
  exact lt_min (div_pos hWF (by norm_num)) (div_pos hHF (by norm_num))

/-- C9: for a viewport with `W > 0` and `H > 0` and any cell `(x, y)`, the camera ray is the
normalisation of `((x - W/2) / K1_X, (Y_CENTER - y) / K1_Y, 1)` with `K1_X = 90 * s`,
`K1_Y = 45 * s`, `s = min (W/80) (H/22)` and `Y_CENTER = 12 * H / 22` truncated; both scale
factors are positive; when `sqrtf` returns the non-negative square root of the raw vector's
sum of squares, the normalising length is at least `1`, the ray has unit length and its `z`
component is positive.  For the 80x22 viewport `K1_X = 90`, `K1_Y = 45`, `Y_CENTER = 12`. -/
theorem C9_camera_ray [FloorRing F] (sqrtf : F → F) (W H x y : Int)
    (hW : 0 < W) (hH : 0 < H)
    (hs0 : 0 ≤ sqrtf (norm_sq (ray_raw W H x y : F × F × F)))
    (hs : sqrtf (norm_sq (ray_raw W H x y : F × F × F))
        * sqrtf (norm_sq (ray_raw W H x y : F × F × F))
        = norm_sq (ray_raw W H x y : F × F × F)) :
    ray_direction sqrtf W H x y
        = ((ray_raw W H x y : F × F × F).1 / sqrtf (norm_sq (ray_raw W H x y : F × F × F)),
           (ray_raw W H x y : F × F × F).2.1 / sqrtf (norm_sq (ray_raw W H x y : F × F × F)),
           (ray_raw W H x y : F × F × F).2.2 / sqrtf (norm_sq (ray_raw W H x y : F × F × F)))
      ∧ (ray_raw W H x y : F × F × F)
        = (((x : F) - (W : F) / 2) / (90 * min ((W : F) / 80) ((H : F) / 22)),
           (((12 * H / 22 : Int) : F) - (y : F)) / (45 * min ((W : F) / 80) ((H : F) / 22)),
           1)
      ∧ ((0 : F) < K1_X W H ∧ (0 : F) < K1_Y W H)
      ∧ 1 ≤ sqrtf (norm_sq (ray_raw W H x y : F × F × F))
      ∧ norm_sq (ray_direction sqrtf W H x y) = 1
      ∧ 0 < (ray_direction sqrtf W H x y).2.2
      ∧ ((K1_X 80 22 : F) = 90 ∧ (K1_Y 80 22 : F) = 45 ∧ Y_CENTER F 22 = 12) := by
  have hsf : (0 : F) < scale_factor W H := scale_factor_pos W H hW hH
  have hdir : ray_direction sqrtf W H x y
      = ((ray_raw W H x y : F × F × F).1 / sqrtf (norm_sq (ray_raw W H x y : F × F × F)),
         (ray_raw W H x y : F × F × F).2.1 / sqrtf (norm_sq (ray_raw W H x y : F × F × F)),
         (ray_raw W H x y : F × F × F).2.2 / sqrtf (norm_sq (ray_raw W H x y : F × F × F))) := by
    simp only [ray_direction, ray_raw, norm_sq]
  have hz : (ray_raw W H x y : F × F × F).2.2 = 1 := by
    simp only [ray_raw]; norm_num
  have hge : (1 : F) ≤ norm_sq (ray_raw W H x y : F × F × F) := by
    unfold norm_sq
    rw [hz]
    nlinarith [mul_self_nonneg (ray_raw W H x y : F × F × F).1,
      mul_self_nonneg (ray_raw W H x y : F × F × F).2.1]
  have hlen : 1 ≤ sqrtf (norm_sq (ray_raw W H x y : F × F × F)) := by
    by_contra hcon
    have hlt := not_le.mp hcon
    nlinarith
  have hpos : 0 < sqrtf (norm_sq (ray_raw W H x y : F × F × F)) := lt_of_lt_of_le one_pos hlen
  refine ⟨hdir, ?_, ⟨?_, ?_⟩, hlen, ?_, ?_, ?_, ?_, ?_⟩
  · simp only [ray_raw, K1_X, K1_Y, scale_factor, BASE_SCALE_X, BASE_SCALE_Y, BASE_WIDTH,
      BASE_HEIGHT, Y_CENTER_eq H (le_of_lt hH)]
    norm_num
  · unfold K1_X BASE_SCALE_X
    exact mul_pos (by norm_num) hsf
  · unfold K1_Y BASE_SCALE_Y
    exact mul_pos (by norm_num) hsf
  · rw [hdir]
    exact norm_sq_div _ _ _ _ hpos (by rw [hs]; rfl)
  · rw [hdir]
    simp only
    rw [hz]
    exact div_pos one_pos hpos
  · norm_num [K1_X, scale_factor, BASE_SCALE_X, BASE_WIDTH, BASE_HEIGHT]
  · norm_num [K1_Y, scale_factor, BASE_SCALE_Y, BASE_WIDTH, BASE_HEIGHT]
  · rw [Y_CENTER_eq 22 (by norm_num)]
    norm_num

/-- Witness for C9: over the reals with the real square root, the 80x22 viewport and the
top-left cell `(0, 0)`. -/
theorem C9_camera_ray_witness :
    ((0 : Int) < 80 ∧ (0 : Int) < 22)
      ∧ norm_sq (ray_direction Real.sqrt 80 22 0 0) = 1
      ∧ 0 < (ray_direction Real.sqrt 80 22 0 0).2.2 :=
  ⟨⟨by norm_num, by norm_num⟩,
    (C9_camera_ray Real.sqrt 80 22 0 0 (by norm_num) (by norm_num) (Real.sqrt_nonneg _)
      (Real.mul_self_sqrt (norm_sq_nonneg _))).2.2.2.2.1,
    (C9_camera_ray Real.sqrt 80 22 0 0 (by norm_num) (by norm_num) (Real.sqrt_nonneg _)
      (Real.mul_self_sqrt (norm_sq_nonneg _))).2.2.2.2.2.1⟩

/-! ### Luminance index -/

/-- Clamping the truncation into `[0, 11]` is the same as clamping the floor: the two
differ only on negative arguments, where both clamp to `0`. -/
theorem clamp_c_int_cast [FloorRing F] (v : F) :
    max 0 (min 11 (c_int_cast v)) = max 0 (min 11 ⌊v⌋) := by
  unfold c_int_cast
  split_ifs with h
  · rfl
  · have hv : v < 0 := not_le.mp h
    have h1 : ⌈v⌉ ≤ 0 := Int.ceil_le.mpr (by exact_mod_cast le_of_lt hv)
    have h2 : ⌊v⌋ ≤ 0 := le_trans (Int.floor_le_ceil v) h1
    rw [max_eq_left (le_trans (min_le_right _ _) h1),
      max_eq_left (le_trans (min_le_right _ _) h2)]

/-- C10 (as amended): the glyph index is `luminance * 8 + 4` truncated toward zero and
clamped to `[0, 11]`; equivalently, rounded down and clamped to `[0, 11]`. -/
theorem C10_luminance_index_truncates [FloorRing F] (luminance : F) :
    luminance_index luminance = max 0 (min 11 (c_int_cast (luminance * 8 + 4)))
      ∧ luminance_index luminance = max 0 (min 11 ⌊luminance * 8 + 4⌋) := by
  have e : luminance_index luminance = max 0 (min 11 (c_int_cast (luminance * 8 + 4))) := by
    have h8 : (8.0 : F) = 8 := by norm_num
    have h4 : (4.0 : F) = 4 := by norm_num
    simp only [luminance_index, h8, h4]
    split_ifs with h1 h2 h3
    · omega
    · simp [h1, le_of_lt h1]
    · rw [min_eq_left (le_of_lt h3), max_eq_right (by omega)]
    · rw [min_eq_right (by omega), max_eq_right (by omega)]
  exact ⟨e, by rw [e, clamp_c_int_cast]⟩

/-- C10 as stated fails: at luminance `1/10` the value `luminance * 8 + 4` is `4.8`; the
program's index is `4`, while rounding gives `5`. -/
theorem C10_counterexample :
    luminance_index (0.1 : ℚ) = 4 ∧ spec_luminance_index (0.1 : ℚ) = 5
      ∧ luminance_index (0.1 : ℚ) ≠ spec_luminance_index (0.1 : ℚ) := by
  have h1 : luminance_index (0.1 : ℚ) = 4 := by
    have hf : ⌊(0.1 : ℚ) * 8.0 + 4.0⌋ = 4 := by
      rw [Int.floor_eq_iff]; norm_num
    have hc : c_int_cast ((0.1 : ℚ) * 8.0 + 4.0) = 4 := by
      rw [c_int_cast_of_nonneg _ (by norm_num), hf]
    simp only [luminance_index, hc]
    norm_num
  have h2 : spec_luminance_index (0.1 : ℚ) = 5 := by
    have hr : round ((0.1 : ℚ) * 8 + 4) = 5 := by
      rw [round_eq, Int.floor_eq_iff]; norm_num
    simp only [spec_luminance_index, hr]
    norm_num
  exact ⟨h1, h2, by rw [h1, h2]; norm_num⟩

/-! ### Glyph ramp -/

theorem luminance_index_eq_clamp_floor [FloorRing F] (luminance : F) :
    luminance_index luminance = max 0 (min 11 ⌊luminance * 8 + 4⌋) := by
  have h8 : (8.0 : F) = 8 := by norm_num
  have h4 : (4.0 : F) = 4 := by norm_num
  rw [← clamp_c_int_cast]
  simp only [luminance_index, h8, h4]
  split_ifs with h1 h2 h3
  · omega
  · simp [h1, le_of_lt h1]
  · rw [min_eq_left (le_of_lt h3), max_eq_right (by omega)]
  · rw [min_eq_right (by omega), max_eq_right (by omega)]

theorem luminance_index_range [FloorRing F] (luminance : F) :
    0 ≤ luminance_index luminance ∧ luminance_index luminance ≤ 11 := by
  rw [luminance_index_eq_clamp_floor]
  exact ⟨le_max_left _ _, max_le (by norm_num) (min_le_left _ _)⟩

/-- Every index in `0..11` reads one of the twelve ramp glyphs, which is neither the NUL
nor the blank. -/
theorem glyph_at_ramp (i : Int) (h0 : 0 ≤ i) (h11 : i ≤ 11) :
    ∃ c, glyph_at i = some c ∧ c ∈ ".:;!=Xs*$M@#".toList
      ∧ c ≠ Char.ofNat 0 ∧ c ≠ Char.ofNat 32 := by
  interval_cases i <;> exact ⟨_, rfl, by decide, by decide, by decide⟩

/-- C11: every luminance `<= -0.5` gets glyph index `0`, whose glyph is `.`, and every
luminance `>= 0.875` gets glyph index `11`, whose glyph is `#`. -/
theorem C11_luminance_clamp [FloorRing F] (luminance : F) :
    (luminance ≤ -0.5 →
        luminance_index luminance = 0 ∧ glyph_at (luminance_index luminance) = some '.')
      ∧ (luminance ≥ 0.875 →
        luminance_index luminance = 11 ∧ glyph_at (luminance_index luminance) = some '#') := by
  constructor
  · intro h
    have hv : luminance * 8 + 4 ≤ ((0 : Int) : F) := by
      have e : (-0.5 : F) * 8 + 4 = 0 := by norm_num
      push_cast
      linarith
    have hf : ⌊luminance * 8 + 4⌋ ≤ 0 := by
      have := Int.floor_le (luminance * 8 + 4)
      exact_mod_cast le_trans this hv
    have hi : luminance_index luminance = 0 := by
      rw [luminance_index_eq_clamp_floor]
      exact max_eq_left (le_trans (min_le_right _ _) hf)
    exact ⟨hi, by rw [hi]; rfl⟩
  · intro h
    have hv : ((11 : Int) : F) ≤ luminance * 8 + 4 := by
      have e : (0.875 : F) * 8 + 4 = 11 := by norm_num
      push_cast
      linarith
    have hf : 11 ≤ ⌊luminance * 8 + 4⌋ := Int.le_floor.mpr hv
    have hi : luminance_index luminance = 11 := by
      rw [luminance_index_eq_clamp_floor, min_eq_left hf]
      rfl
    exact ⟨hi, by rw [hi]; rfl⟩

/-- Witness for C11: luminance `-1` and luminance `1`. -/
theorem C11_luminance_clamp_witness :
    ((-1 : ℚ) ≤ -0.5 ∧ luminance_index (-1 : ℚ) = 0
        ∧ glyph_at (luminance_index (-1 : ℚ)) = some '.')
      ∧ ((1 : ℚ) ≥ 0.875 ∧ luminance_index (1 : ℚ) = 11
        ∧ glyph_at (luminance_index (1 : ℚ)) = some '#') :=
  ⟨⟨by norm_num, (C11_luminance_clamp (-1 : ℚ)).1 (by norm_num)⟩,
    ⟨by norm_num, (C11_luminance_clamp (1 : ℚ)).2 (by norm_num)⟩⟩

/-- C17: for every luminance the clamped glyph index lies in `0..11`, the read of the ramp
at that index is inside the array, and the glyph read (the glyph `shade` stores for a hit)
is one of the twelve ramp characters, never the terminating NUL or the blank. -/
theorem C17_glyph_lookup_in_bounds [FloorRing F] (luminance : F) (sqrtf : F → F)
    (hit : F × F × F) (blobs : List (Metablob F)) :
    (0 ≤ luminance_index luminance ∧ luminance_index luminance ≤ 11)
      ∧ (luminance_index luminance).toNat < LUMINANCE_CHARS.length
      ∧ (∃ c, glyph_at (luminance_index luminance) = some c
          ∧ c ∈ ".:;!=Xs*$M@#".toList ∧ c ≠ Char.ofNat 0 ∧ c ≠ Char.ofNat 32)
      ∧ (shade sqrtf hit blobs ∈ ".:;!=Xs*$M@#".toList
          ∧ shade sqrtf hit blobs ≠ Char.ofNat 0 ∧ shade sqrtf hit blobs ≠ Char.ofNat 32) := by
  obtain ⟨h0, h11⟩ := luminance_index_range luminance
  refine ⟨⟨h0, h11⟩, ?_, glyph_at_ramp _ h0 h11, ?_⟩
  · have hlen : LUMINANCE_CHARS.length = 13 := by decide
    rw [hlen]
    omega
  · unfold shade
    simp only
    obtain ⟨h0', h11'⟩ := luminance_index_range
      ((calculate_normal sqrtf hit.1 hit.2.1 hit.2.2 blobs).1 * -0.3
        + (calculate_normal sqrtf hit.1 hit.2.1 hit.2.2 blobs).2.1 * -0.7
        + (calculate_normal sqrtf hit.1 hit.2.1 hit.2.2 blobs).2.2 * 0.6)
    obtain ⟨c, hc, hm, hn, hb⟩ := glyph_at_ramp _ h0' h11'
    rw [hc]
    exact ⟨hm, hn, hb⟩

/-! ### Depth test and buffer indices -/

theorem depth_test_length (bufs : FrameBuffers F) (i : Nat) (d : F) (g : Char) :
    (depth_test bufs i d g).z_buffer.length = bufs.z_buffer.length
      ∧ (depth_test bufs i d g).screen_buffer.length = bufs.screen_buffer.length := by
  unfold depth_test
  split_ifs <;> simp

/-- The depth test at index `i` leaves every other cell as it was. -/
theorem depth_test_other (bufs : FrameBuffers F) (i j : Nat) (d : F) (g : Char) (hij : i ≠ j) :
    cell_state (depth_test bufs i d g) j = cell_state bufs j := by
  unfold depth_test cell_state
  split_ifs
  · simp [List.getElem?_set_ne hij]
  · rfl

theorem depth_test_pass (bufs : FrameBuffers F) (i : Nat) (d : F) (g : Char)
    (hz : i < bufs.z_buffer.length) (hs : i < bufs.screen_buffer.length)
    (hd : d > bufs.z_buffer.getD i 0) :
    cell_state (depth_test bufs i d g) i = (some d, some g) := by
  unfold depth_test cell_state
  rw [if_pos hd]
  simp [List.getElem?_set_self hz, List.getElem?_set_self hs]

theorem depth_test_fail (bufs : FrameBuffers F) (i : Nat) (d : F) (g : Char)
    (hd : ¬ d > bufs.z_buffer.getD i 0) :
    depth_test bufs i d g = bufs := by
  unfold depth_test
  rw [if_neg hd]

theorem depth_test_depth (bufs : FrameBuffers F) (i : Nat) (d : F) (g : Char)
    (hz : i < bufs.z_buffer.length) :
    (depth_test bufs i d g).z_buffer.getD i 0 = max (bufs.z_buffer.getD i 0) d := by
  by_cases hd : d > bufs.z_buffer.getD i 0
  · unfold depth_test
    rw [if_pos hd, max_eq_right (le_of_lt hd)]
    simp [List.getElem?_set_self hz]
  · rw [depth_test_fail bufs i d g hd, max_eq_left (not_lt.mp hd)]

/-- C13: the per-cell depth test overwrites the depth and the glyph of the cell exactly when
the candidate depth `d` is strictly greater than the stored depth, and otherwise (also at
equal depth) leaves the buffers as they were; the stored depth afterwards is
`max old d`, so it does not decrease, and after any sequence of candidates it is the
greatest of the stored depth and all candidate depths. -/
theorem C13_depth_test_keeps_greatest (bufs : FrameBuffers F) (i : Nat) (d : F) (g : Char)
    (hz : i < bufs.z_buffer.length) (hs : i < bufs.screen_buffer.length) :
    (d > bufs.z_buffer.getD i 0 → cell_state (depth_test bufs i d g) i = (some d, some g))
      ∧ (¬ d > bufs.z_buffer.getD i 0 → depth_test bufs i d g = bufs)
      ∧ (d = bufs.z_buffer.getD i 0 → depth_test bufs i d g = bufs)
      ∧ (depth_test bufs i d g).z_buffer.getD i 0 = max (bufs.z_buffer.getD i 0) d
      ∧ bufs.z_buffer.getD i 0 ≤ (depth_test bufs i d g).z_buffer.getD i 0
      ∧ ∀ cands : List (F × Char),
          (cands.foldl (fun b c => depth_test b i c.1 c.2) bufs).z_buffer.getD i 0
            = cands.foldl (fun m c => max m c.1) (bufs.z_buffer.getD i 0) := by
  refine ⟨depth_test_pass bufs i d g hz hs, depth_test_fail bufs i d g, ?_,
    depth_test_depth bufs i d g hz, ?_, ?_⟩
  · intro he
    exact depth_test_fail bufs i d g (by rw [he]; exact lt_irrefl _)
  · rw [depth_test_depth bufs i d g hz]
    exact le_max_left _ _
  · intro cands
    induction cands generalizing bufs with
    | nil => rfl
    | cons c cs ih =>
      simp only [List.foldl_cons]
      rw [ih (depth_test bufs i c.1 c.2)
        (by rw [(depth_test_length bufs i c.1 c.2).1]; exact hz)
        (by rw [(depth_test_length bufs i c.1 c.2).2]; exact hs),
        depth_test_depth bufs i c.1 c.2 hz]

/-- Witness for C13: a one-cell buffer holding depth `1/4` and the glyph `:`; the candidate
`1/2` with glyph `#` is nearer and replaces both. -/
theorem C13_depth_test_keeps_greatest_witness :
    (0 < (⟨[1 / 4], [':']⟩ : FrameBuffers ℚ).z_buffer.length
        ∧ 0 < (⟨[1 / 4], [':']⟩ : FrameBuffers ℚ).screen_buffer.length)
      ∧ (depth_test (⟨[1 / 4], [':']⟩ : FrameBuffers ℚ) 0 (1 / 2) '#').z_buffer.getD 0 0
          = max ((⟨[1 / 4], [':']⟩ : FrameBuffers ℚ).z_buffer.getD 0 0) (1 / 2)
      ∧ cell_state (depth_test (⟨[1 / 4], [':']⟩ : FrameBuffers ℚ) 0 (1 / 2) '#') 0
          = (some (1 / 2), some '#') :=
  ⟨⟨by simp, by simp⟩,
    (C13_depth_test_keeps_greatest (⟨[1 / 4], [':']⟩ : FrameBuffers ℚ) 0 (1 / 2) '#'
      (by simp) (by simp)).2.2.2.1,
    (C13_depth_test_keeps_greatest (⟨[1 / 4], [':']⟩ : FrameBuffers ℚ) 0 (1 / 2) '#'
      (by simp) (by simp)).1 (by norm_num)⟩

theorem buffer_index_lt (W H x y : Nat) (hx : x < W) (hy : y < H) :
    buffer_index W x y < W * H := by
  unfold buffer_index
  calc x + W * y < W + W * y := by omega
    _ = W * (y + 1) := by ring
    _ ≤ W * H := Nat.mul_le_mul_left W hy

theorem buffer_index_inj (W x y x' y' : Nat) (hx : x < W) (hx' : x' < W)
    (h : buffer_index W x y = buffer_index W x' y') : x = x' ∧ y = y' := by
  unfold buffer_index at h
  have hW : 0 < W := by omega
  have hm : (x + W * y) % W = (x' + W * y') % W := by rw [h]
  rw [Nat.add_mul_mod_self_left, Nat.add_mul_mod_self_left, Nat.mod_eq_of_lt hx,
    Nat.mod_eq_of_lt hx'] at hm
  have hd : (x + W * y) / W = (x' + W * y') / W := by rw [h]
  rw [Nat.add_mul_div_left _ _ hW, Nat.add_mul_div_left _ _ hW, Nat.div_eq_of_lt hx,
    Nat.div_eq_of_lt hx'] at hd
  exact ⟨hm, by omega⟩

/-- Rendering one cell leaves the state of every other buffer index as it was. -/
theorem render_cell_other [FloorRing F] (sqrtf : F → F) (hit0 : F × F × F) (W H : Nat)
    (blobs : List (Metablob F)) (x y j : Nat) (bufs : FrameBuffers F)
    (hj : buffer_index W x y ≠ j) :
    cell_state (render_cell sqrtf hit0 W H blobs x y bufs) j = cell_state bufs j := by
  unfold render_cell
  simp only
  split_ifs
  · exact depth_test_other bufs _ j _ _ hj
  · rfl

theorem render_cell_length [FloorRing F] (sqrtf : F → F) (hit0 : F × F × F) (W H : Nat)
    (blobs : List (Metablob F)) (x y : Nat) (bufs : FrameBuffers F) :
    (render_cell sqrtf hit0 W H blobs x y bufs).z_buffer.length = bufs.z_buffer.length
      ∧ (render_cell sqrtf hit0 W H blobs x y bufs).screen_buffer.length
          = bufs.screen_buffer.length := by
  unfold render_cell
  simp only
  split_ifs
  · exact depth_test_length bufs _ _ _
  · exact ⟨rfl, rfl⟩

/-- C18: for a cell `(x, y)` with `x < W` and `y < H` the buffer index `x + W * y` lies in
`[0, W * H)`; two cells of the viewport with the same index are the same cell; and
rendering the cell `(x, y)` leaves the depth and glyph of every other cell `(x', y')` of the
viewport as they were. -/
theorem C18_buffer_index_disjoint [FloorRing F] (W H x y x' y' : Nat)
    (hx : x < W) (hy : y < H) (hx' : x' < W) (hy' : y' < H)
    (sqrtf : F → F) (hit0 : F × F × F) (blobs : List (Metablob F)) (bufs : FrameBuffers F) :
    (0 ≤ buffer_index W x y ∧ buffer_index W x y < W * H)
      ∧ (0 ≤ buffer_index W x' y' ∧ buffer_index W x' y' < W * H)
      ∧ (buffer_index W x y = buffer_index W x' y' → x = x' ∧ y = y')
      ∧ ((x, y) ≠ (x', y') →
          cell_state (render_cell sqrtf hit0 W H blobs x y bufs) (buffer_index W x' y')
            = cell_state bufs (buffer_index W x' y')) := by
  refine ⟨⟨Nat.zero_le _, buffer_index_lt W H x y hx hy⟩,
    ⟨Nat.zero_le _, buffer_index_lt W H x' y' hx' hy'⟩,
    buffer_index_inj W x y x' y' hx hx', ?_⟩
  intro hne
  apply render_cell_other
  intro he
  obtain ⟨h1, h2⟩ := buffer_index_inj W x y x' y' hx hx' he
  exact hne (by rw [h1, h2])

/-- Witness for C18: the cells `(3, 1)` and `(0, 2)` of the 80x22 viewport, with one blob
at the origin and buffers of `80 * 22` cells. -/
theorem C18_buffer_index_disjoint_witness :
    (3 < 80 ∧ 1 < 22 ∧ 0 < 80 ∧ 2 < 22)
      ∧ buffer_index 80 3 1 < 80 * 22
      ∧ cell_state (render_cell (fun v : ℚ => v) (0, 0, 0) 80 22 [⟨0, 0, 0⟩] 3 1
            ⟨List.replicate (80 * 22) 0, List.replicate (80 * 22) (Char.ofNat 32)⟩)
          (buffer_index 80 0 2)
        = cell_state
            (⟨List.replicate (80 * 22) 0, List.replicate (80 * 22) (Char.ofNat 32)⟩ :
              FrameBuffers ℚ)
            (buffer_index 80 0 2) :=
  ⟨⟨by norm_num, by norm_num, by norm_num, by norm_num⟩,
    (C18_buffer_index_disjoint 80 22 3 1 0 2 (by norm_num) (by norm_num)
      (by norm_num) (by norm_num) (fun v : ℚ => v) (0, 0, 0) [⟨0, 0, 0⟩]
      ⟨List.replicate (80 * 22) 0, List.replicate (80 * 22) (Char.ofNat 32)⟩).1.2,
    (C18_buffer_index_disjoint 80 22 3 1 0 2 (by norm_num) (by norm_num)
      (by norm_num) (by norm_num) (fun v : ℚ => v) (0, 0, 0) [⟨0, 0, 0⟩]
      ⟨List.replicate (80 * 22) 0, List.replicate (80 * 22) (Char.ofNat 32)⟩).2.2.2
      (by simp)⟩

/-! ### The ray marcher: step sizes and hit distances -/

/-- Below `THRESHOLD` the adaptive step lies in `(1/11, 1]`. -/
theorem step_bounds (f : F) (h0 : 0 ≤ f) (h1 : f < THRESHOLD) :
    (1 : F) / 11 < 0.1 / (f + 0.1) ∧ (0.1 : F) / (f + 0.1) ≤ 1 := by
  unfold THRESHOLD at h1
  have h01 : (0 : F) < 0.1 := by norm_num
  have hpos : (0 : F) < f + 0.1 := by linarith
  constructor
  · rw [div_lt_div_iff₀ (by norm_num) hpos]
    have e : (0.1 : F) * 11 = 1.0 + 0.1 := by norm_num
    rw [e]
    linarith
  · rw [div_le_one hpos]
    linarith

theorem ray_march_loop_head (ox oy oz dx dy dz : F) (blobs : List (Metablob F))
    (n : Nat) (t : F) :
    ∀ s ∈ (ray_march_loop ox oy oz dx dy dz blobs n t).evals.head?, s = t := by
  cases n with
  | zero =>
    rw [ray_march_loop_zero]
    simp
  | succ n =>
    rw [ray_march_loop_succ]
    split_ifs <;> simp

/-- Consecutive samples of the loop are between `1/11` (exclusive) and `1` apart. -/
theorem ray_march_loop_chain (ox oy oz dx dy dz : F) (blobs : List (Metablob F))
    (n : Nat) (t : F) :
    List.Chain' (fun a b => a + 1 / 11 < b ∧ b ≤ a + 1)
      (ray_march_loop ox oy oz dx dy dz blobs n t).evals := by
  induction n generalizing t with
  | zero =>
    rw [ray_march_loop_zero]
    exact List.chain'_nil
  | succ n ih =>
    rw [ray_march_loop_succ]
    split_ifs with h1 h2
    · exact List.chain'_singleton _
    · exact List.chain'_singleton _
    · simp only
      rw [List.chain'_cons']
      refine ⟨?_, ih _⟩
      intro s hs
      rw [ray_march_loop_head ox oy oz dx dy dz blobs n _ s hs]
      obtain ⟨hlo, hhi⟩ := step_bounds _ (sample_field_nonneg ox oy oz dx dy dz blobs t)
        (not_le.mp h1)
      constructor <;> linarith

/-- C16: `metablob_field` is never negative, so the denominator `field + 0.1` of the
adaptive step is at least `0.1` and not zero; wherever the field is below `THRESHOLD` the
step `0.1 / (field + 0.1)` lies in `(1/11, 1]`; and each sample `ray_march` evaluates lies
more than `1/11` and at most `1` beyond the one before, so `t` strictly increases. -/
theorem C16_marcher_arithmetic_total (px py pz ox oy oz dx dy dz : F)
    (blobs : List (Metablob F)) :
    0 ≤ metablob_field px py pz blobs
      ∧ 0.1 ≤ metablob_field px py pz blobs + 0.1
      ∧ metablob_field px py pz blobs + 0.1 ≠ 0
      ∧ (metablob_field px py pz blobs < THRESHOLD →
          1 / 11 < 0.1 / (metablob_field px py pz blobs + 0.1)
            ∧ 0.1 / (metablob_field px py pz blobs + 0.1) ≤ 1)
      ∧ List.Chain' (fun a b => a + 1 / 11 < b ∧ b ≤ a + 1)
          (ray_march ox oy oz dx dy dz blobs).evals
      ∧ List.Chain' (fun a b => a < b) (ray_march ox oy oz dx dy dz blobs).evals := by
  have h0 := field_nonneg px py pz blobs
  have h01 : (0 : F) < 0.1 := by norm_num
  have hch := ray_march_loop_chain ox oy oz dx dy dz blobs MAX_STEPS 0.0
  refine ⟨h0, by linarith, ne_of_gt (by linarith), step_bounds _ h0, hch, ?_⟩
  refine List.Chain'.imp ?_ hch
  intro a b hab
  have : (0 : F) < 1 / 11 := by norm_num
  linarith [hab.1]

/-- C19: a hit distance returned by `ray_march` satisfies `0 <= t <= MAX_DISTANCE`, and the
depth score `1 / (t + 1)` computed from it lies in `[1/21, 1]`. -/
theorem C19_hit_distance_bounded (ox oy oz dx dy dz : F) (blobs : List (Metablob F))
    (h : (ray_march ox oy oz dx dy dz blobs).ret ≠ -1) :
    0 ≤ (ray_march ox oy oz dx dy dz blobs).ret
      ∧ (ray_march ox oy oz dx dy dz blobs).ret ≤ MAX_DISTANCE
      ∧ (1 : F) / 21 ≤ 1.0 / ((ray_march ox oy oz dx dy dz blobs).ret + 1.0)
      ∧ (1.0 : F) / ((ray_march ox oy oz dx dy dz blobs).ret + 1.0) ≤ 1 := by
  unfold ray_march at h ⊢
  obtain ⟨-, -, hcase⟩ := ray_march_loop_spec ox oy oz dx dy dz blobs MAX_STEPS 0.0
  rcases hcase with ⟨h1, -⟩ | ⟨h1, -, -, earlier, h4, -⟩
  · exact absurd h1 h
  · have h0 : (0 : F) ≤ (ray_march_loop ox oy oz dx dy dz blobs MAX_STEPS 0.0).ret :=
      le_trans (by norm_num) h1
    have hmem : (ray_march_loop ox oy oz dx dy dz blobs MAX_STEPS 0.0).ret
        ∈ (ray_march_loop ox oy oz dx dy dz blobs MAX_STEPS 0.0).evals := by
      rw [h4]; simp
    have hmax := ray_march_loop_evals_le ox oy oz dx dy dz blobs MAX_STEPS 0.0
      (by norm_num [MAX_DISTANCE]) _ hmem
    have hmax' : (ray_march_loop ox oy oz dx dy dz blobs MAX_STEPS 0.0).ret ≤ 20 := by
      unfold MAX_DISTANCE at hmax
      exact le_trans hmax (by norm_num)
    have hpos : (0 : F) < (ray_march_loop ox oy oz dx dy dz blobs MAX_STEPS 0.0).ret + 1.0 := by
      have : (1.0 : F) = 1 := by norm_num
      rw [this]
      linarith
    refine ⟨h0, hmax, ?_, ?_⟩
    · rw [div_le_div_iff₀ (by norm_num) hpos]
      have : (1.0 : F) = 1 := by norm_num
      rw [this]
      linarith
    · rw [div_le_one hpos]
      linarith

/-- Witness for C19: the eye `(0, 0, -8)` looking along `+z` at one blob at the origin. -/
theorem C19_hit_distance_bounded_witness :
    (ray_march (0 : ℚ) 0 (-8) 0 0 1 [⟨0, 0, 0⟩]).ret ≠ -1
      ∧ 0 ≤ (ray_march (0 : ℚ) 0 (-8) 0 0 1 [⟨0, 0, 0⟩]).ret
      ∧ (ray_march (0 : ℚ) 0 (-8) 0 0 1 [⟨0, 0, 0⟩]).ret ≤ MAX_DISTANCE :=
  have h : (ray_march (0 : ℚ) 0 (-8) 0 0 1 [⟨0, 0, 0⟩]).ret ≠ -1 :=
    ray_march_hits_ahead (0 : ℚ) 0 (-8) 0 0 1 8 ⟨0, 0, 0⟩ (by norm_num)
      (by norm_num) (by norm_num) (by norm_num) (by norm_num) (by norm_num)
  ⟨h, (C19_hit_distance_bounded (0 : ℚ) 0 (-8) 0 0 1 [⟨0, 0, 0⟩] h).1,
    (C19_hit_distance_bounded (0 : ℚ) 0 (-8) 0 0 1 [⟨0, 0, 0⟩] h).2.1⟩

/-! ### Order of the blobs -/

theorem field_perm (px py pz : F) (blobs blobs' : List (Metablob F))
    (h : blobs.Perm blobs') :
    metablob_field px py pz blobs = metablob_field px py pz blobs' := by
  rw [field_eq_sum, field_eq_sum]
  exact (h.map _).sum_eq

/-- Two blob lists with the same field everywhere give the same march. -/
theorem ray_march_loop_congr (ox oy oz dx dy dz : F) (blobs blobs' : List (Metablob F))
    (hf : ∀ px py pz : F, metablob_field px py pz blobs = metablob_field px py pz blobs')
    (n : Nat) (t : F) :
    ray_march_loop ox oy oz dx dy dz blobs n t = ray_march_loop ox oy oz dx dy dz blobs' n t := by
  induction n generalizing t with
  | zero => rfl
  | succ n ih =>
    rw [ray_march_loop_succ, ray_march_loop_succ]
    simp only [sample_field, hf, ih]

theorem calculate_normal_congr (sqrtf : F → F) (px py pz : F) (blobs blobs' : List (Metablob F))
    (hf : ∀ px py pz : F, metablob_field px py pz blobs = metablob_field px py pz blobs') :
    calculate_normal sqrtf px py pz blobs = calculate_normal sqrtf px py pz blobs' := by
  simp only [calculate_normal, hf]

/-- C15: permuting the blob list leaves `metablob_field` unchanged at every point (exact
arithmetic), and with it everything `ray_march` produces (hit or `-1`, hit distance, hit
point, the samples taken), the normal of `calculate_normal`, the glyph chosen by `shade`
and the buffers after rendering a cell. -/
theorem C15_blob_order_independent [FloorRing F] (blobs blobs' : List (Metablob F))
    (h : blobs.Perm blobs') (px py pz ox oy oz dx dy dz : F) (sqrtf : F → F)
    (hit hit0 : F × F × F) (W H x y : Nat) (bufs : FrameBuffers F) :
    metablob_field px py pz blobs = metablob_field px py pz blobs'
      ∧ ray_march ox oy oz dx dy dz blobs = ray_march ox oy oz dx dy dz blobs'
      ∧ calculate_normal sqrtf px py pz blobs = calculate_normal sqrtf px py pz blobs'
      ∧ shade sqrtf hit blobs = shade sqrtf hit blobs'
      ∧ render_cell sqrtf hit0 W H blobs x y bufs = render_cell sqrtf hit0 W H blobs' x y bufs := by
  have hf : ∀ px py pz : F, metablob_field px py pz blobs = metablob_field px py pz blobs' :=
    fun px py pz => field_perm px py pz blobs blobs' h
  have hmarch : ∀ ox oy oz dx dy dz : F,
      ray_march ox oy oz dx dy dz blobs = ray_march ox oy oz dx dy dz blobs' := by
    intro ox oy oz dx dy dz
    unfold ray_march
    exact ray_march_loop_congr ox oy oz dx dy dz blobs blobs' hf _ _
  have hshade : ∀ hit : F × F × F, shade sqrtf hit blobs = shade sqrtf hit blobs' := by
    intro hit
    unfold shade
    rw [calculate_normal_congr sqrtf _ _ _ blobs blobs' hf]
  refine ⟨hf px py pz, hmarch ox oy oz dx dy dz,
    calculate_normal_congr sqrtf px py pz blobs blobs' hf, hshade hit, ?_⟩
  unfold render_cell cell_march
  simp only [hmarch, hshade]

/-- Witness for C15: two blobs on the `z` axis, listed nearer-first and farther-first, seen
from the eye `(0, 0, -8)`. -/
theorem C15_blob_order_independent_witness :
    ([⟨0, 0, 0⟩, ⟨0, 0, 3⟩] : List (Metablob ℚ)).Perm [⟨0, 0, 3⟩, ⟨0, 0, 0⟩]
      ∧ ray_march (0 : ℚ) 0 (-8) 0 0 1 [⟨0, 0, 0⟩, ⟨0, 0, 3⟩]
          = ray_march (0 : ℚ) 0 (-8) 0 0 1 [⟨0, 0, 3⟩, ⟨0, 0, 0⟩] :=
  ⟨List.Perm.swap _ _ _,
    (C15_blob_order_independent ([⟨0, 0, 0⟩, ⟨0, 0, 3⟩] : List (Metablob ℚ))
      [⟨0, 0, 3⟩, ⟨0, 0, 0⟩] (List.Perm.swap _ _ _) 0 0 0 0 0 (-8) 0 0 1 (fun v => v)
      (0, 0, 0) (0, 0, 0) 1 1 0 0 ⟨[0], [Char.ofNat 32]⟩).2.1⟩

/-! ### Motion of the blobs and the eye -/

theorem rotate_norm (cosf sinf : F → F) (a b angle : F)
    (h : cosf angle * cosf angle + sinf angle * sinf angle = 1) :
    (rotate cosf sinf a b angle).1 * (rotate cosf sinf a b angle).1
        + (rotate cosf sinf a b angle).2 * (rotate cosf sinf a b angle).2
      = a * a + b * b := by
  simp only [rotate]
  linear_combination (a * a + b * b) * h

/-- The two rotations applied to a blob keep its squared distance from the origin. -/
theorem tumble_norm (cosf sinf : F → F)
    (htrig : ∀ a : F, cosf a * cosf a + sinf a * sinf a = 1) (x y z p q : F) :
    (rotate cosf sinf x (rotate cosf sinf y z p).1 q).1
          * (rotate cosf sinf x (rotate cosf sinf y z p).1 q).1
        + (rotate cosf sinf x (rotate cosf sinf y z p).1 q).2
          * (rotate cosf sinf x (rotate cosf sinf y z p).1 q).2
        + (rotate cosf sinf y z p).2 * (rotate cosf sinf y z p).2
      = x * x + y * y + z * z := by
  rw [rotate_norm cosf sinf x _ q (htrig q)]
  have := rotate_norm cosf sinf y z p (htrig p)
  linarith

theorem sin_sq_le_one (cosf sinf : F → F)
    (htrig : ∀ a : F, cosf a * cosf a + sinf a * sinf a = 1) (a : F) :
    sinf a * sinf a ≤ 1 ∧ cosf a * cosf a ≤ 1 := by
  have h := htrig a
  constructor
  · nlinarith [mul_self_nonneg (cosf a)]
  · nlinarith [mul_self_nonneg (sinf a)]

/-- Every blob placed by the motion code is within squared distance `2.6² + 0.6²` of the
origin. -/
theorem blob_positions_norm (cosf sinf : F → F)
    (htrig : ∀ a : F, cosf a * cosf a + sinf a * sinf a = 1) (angle_A angle_B : F) :
    ∀ b ∈ blob_positions cosf sinf angle_A angle_B,
      b.x * b.x + b.y * b.y + b.z * b.z ≤ 2.6 * 2.6 + 0.6 * 0.6 := by
  intro b hb
  simp only [blob_positions, List.mem_cons, List.mem_singleton, List.not_mem_nil,
    or_false] at hb
  rcases hb with rfl | rfl | rfl
  · simp only
    rw [tumble_norm cosf sinf htrig]
    have h1 := htrig (angle_A * 2.3)
    have h2 := (sin_sq_le_one cosf sinf htrig (angle_B * 3.1)).1
    have e : (1.5 : F) * cosf (angle_A * 2.3) * (1.5 * cosf (angle_A * 2.3))
        + 1.5 * sinf (angle_A * 2.3) * (1.5 * sinf (angle_A * 2.3))
        + 0.8 * sinf (angle_B * 3.1) * (0.8 * sinf (angle_B * 3.1))
        = 2.25 * (cosf (angle_A * 2.3) * cosf (angle_A * 2.3)
            + sinf (angle_A * 2.3) * sinf (angle_A * 2.3))
          + 0.64 * (sinf (angle_B * 3.1) * sinf (angle_B * 3.1)) := by
      norm_num
      ring
    rw [e, h1]
    norm_num
    linarith
  · simp only
    rw [tumble_norm cosf sinf htrig]
    have h1 := htrig (angle_A * 1.7 + 1.5)
    have h2 := (sin_sq_le_one cosf sinf htrig (angle_B * 2.3)).2
    have e : (2.2 : F) * cosf (angle_A * 1.7 + 1.5) * (2.2 * cosf (angle_A * 1.7 + 1.5))
        + 2.2 * sinf (angle_A * 1.7 + 1.5) * (2.2 * sinf (angle_A * 1.7 + 1.5))
        + 1.0 * cosf (angle_B * 2.3) * (1.0 * cosf (angle_B * 2.3))
        = 4.84 * (cosf (angle_A * 1.7 + 1.5) * cosf (angle_A * 1.7 + 1.5)
            + sinf (angle_A * 1.7 + 1.5) * sinf (angle_A * 1.7 + 1.5))
          + (cosf (angle_B * 2.3) * cosf (angle_B * 2.3)) := by
      norm_num
      ring
    rw [e, h1]
    norm_num
    linarith
  · simp only
    rw [tumble_norm cosf sinf htrig]
    have h1 := htrig (angle_A * 1.1 + 3.7)
    have h2 := (sin_sq_le_one cosf sinf htrig (angle_B * -1.8)).1
    have e : (2.6 : F) * cosf (angle_A * 1.1 + 3.7) * (2.6 * cosf (angle_A * 1.1 + 3.7))
        + 2.6 * sinf (angle_A * 1.1 + 3.7) * (2.6 * sinf (angle_A * 1.1 + 3.7))
        + 0.6 * sinf (angle_B * -1.8) * (0.6 * sinf (angle_B * -1.8))
        = 6.76 * (cosf (angle_A * 1.1 + 3.7) * cosf (angle_A * 1.1 + 3.7)
            + sinf (angle_A * 1.1 + 3.7) * sinf (angle_A * 1.1 + 3.7))
          + 0.36 * (sinf (angle_B * -1.8) * sinf (angle_B * -1.8)) := by
      ring_nf
    rw [e, h1]
    generalize sinf (angle_B * -1.8) = s at h2
    norm_num
    linarith

theorem field_le_of_terms (px py pz c : F) (blobs : List (Metablob F))
    (h : ∀ b ∈ blobs, blob_term px py pz b ≤ c) :
    metablob_field px py pz blobs ≤ (blobs.length : F) * c := by
  induction blobs with
  | nil => simp [field_nil]
  | cons b bs ih =>
    rw [field_cons]
    have h1 := h b (List.mem_cons_self _ _)
    have h2 := ih (fun a ha => h a (List.mem_cons_of_mem _ ha))
    simp only [List.length_cons]
    push_cast
    linarith

/-- A blob within squared distance `2.6² + 0.6²` of the origin adds at most `1.44 / 25` to
the field at the eye `(0, 0, -8)`. -/
theorem blob_term_at_eye (b : Metablob F)
    (hb : b.x * b.x + b.y * b.y + b.z * b.z ≤ 2.6 * 2.6 + 0.6 * 0.6) :
    blob_term 0.0 0.0 (-K2) b ≤ 1.44 / 25 := by
  have hz : -3 < b.z := by
    by_contra hcon
    have h3 : b.z ≤ -3 := not_lt.mp hcon
    have h9 : 9 ≤ b.z * b.z := by nlinarith
    have hsum : (2.6 : F) * 2.6 + 0.6 * 0.6 < 9 := by norm_num
    nlinarith [mul_self_nonneg b.x, mul_self_nonneg b.y]
  have hd : 25 < squared_distance 0.0 0.0 (-K2) b := by
    unfold squared_distance K2
    have e : ((0.0 : F) - b.x) * (0.0 - b.x) + (0.0 - b.y) * (0.0 - b.y)
        + (-8.0 - b.z) * (-8.0 - b.z)
        = b.x * b.x + b.y * b.y + (8 + b.z) * (8 + b.z) := by
      norm_num
      ring
    rw [e]
    nlinarith [mul_self_nonneg b.x, mul_self_nonneg b.y]
  unfold blob_term
  have hcut : squared_distance 0.0 0.0 (-K2) b > 0.0001 := lt_trans (by norm_num) hd
  rw [if_pos hcut]
  exact div_le_div_of_nonneg_left (by norm_num) (by norm_num) (le_of_lt hd)

/-- With the blobs placed by the motion code the field at the eye is below `THRESHOLD`. -/
theorem field_at_eye_lt (cosf sinf : F → F)
    (htrig : ∀ a : F, cosf a * cosf a + sinf a * sinf a = 1) (angle_A angle_B : F) :
    metablob_field 0.0 0.0 (-K2) (blob_positions cosf sinf angle_A angle_B) < THRESHOLD := by
  have h := field_le_of_terms (0.0 : F) 0.0 (-K2) (1.44 / 25)
    (blob_positions cosf sinf angle_A angle_B)
    (fun b hb => blob_term_at_eye b (blob_positions_norm cosf sinf htrig angle_A angle_B b hb))
  have hlen : (blob_positions cosf sinf angle_A angle_B).length = 3 := rfl
  rw [hlen] at h
  unfold THRESHOLD
  refine lt_of_le_of_lt h ?_
  norm_num

/-- A march that starts where the field is below `THRESHOLD` returns either `-1` or a
positive distance. -/
theorem ray_march_from_outside (ox oy oz dx dy dz : F) (blobs : List (Metablob F))
    (h : metablob_field ox oy oz blobs < THRESHOLD) :
    (ray_march ox oy oz dx dy dz blobs).ret = -1
      ∨ 0 < (ray_march ox oy oz dx dy dz blobs).ret := by
  have hs : sample_field ox oy oz dx dy dz blobs 0.0 = metablob_field ox oy oz blobs := by
    unfold sample_field
    have e : ∀ a d : F, a + d * 0.0 = a := by
      intro a d
      norm_num
    rw [e, e, e]
  unfold ray_march
  rw [show MAX_STEPS = 63 + 1 from rfl, ray_march_loop_succ, hs, if_neg (not_le.mpr h)]
  split_ifs with hfar
  · left
    norm_num
  · have hstep := step_pos _ (field_nonneg ox oy oz blobs)
    obtain ⟨-, -, hcase⟩ := ray_march_loop_spec ox oy oz dx dy dz blobs 63
      (0.0 + 0.1 / (metablob_field ox oy oz blobs + 0.1))
    rcases hcase with ⟨h1, -⟩ | ⟨h1, -⟩
    · left
      exact h1
    · right
      have h0 : (0.0 : F) = 0 := by norm_num
      rw [h0] at h1
      simp only
      linarith

/-- C20: when `cosf` and `sinf` satisfy `cos² + sin² = 1`, the planar rotation keeps
`a² + b²`, each of the three blobs placed by the motion code is within squared distance
`2.6² + 0.6² < 2.67²` of the origin, the field at the eye `(0, 0, -8)` is strictly below
`THRESHOLD`, and so for every ray direction `ray_march` from the eye never returns `0`:
the test `t > 0` of the compositor rejects exactly the value `-1`. -/
theorem C20_eye_outside_surface (cosf sinf : F → F)
    (htrig : ∀ a : F, cosf a * cosf a + sinf a * sinf a = 1)
    (angle_A angle_B dx dy dz : F) :
    (∀ a b angle : F,
        (rotate cosf sinf a b angle).1 * (rotate cosf sinf a b angle).1
            + (rotate cosf sinf a b angle).2 * (rotate cosf sinf a b angle).2
          = a * a + b * b)
      ∧ (blob_positions cosf sinf angle_A angle_B).length = 3
      ∧ (∀ b ∈ blob_positions cosf sinf angle_A angle_B,
          b.x * b.x + b.y * b.y + b.z * b.z ≤ 2.6 * 2.6 + 0.6 * 0.6
            ∧ b.x * b.x + b.y * b.y + b.z * b.z < 2.67 * 2.67)
      ∧ metablob_field 0.0 0.0 (-K2) (blob_positions cosf sinf angle_A angle_B) < THRESHOLD
      ∧ (ray_march 0.0 0.0 (-K2) dx dy dz (blob_positions cosf sinf angle_A angle_B)).ret ≠ 0
      ∧ ((ray_march 0.0 0.0 (-K2) dx dy dz (blob_positions cosf sinf angle_A angle_B)).ret > 0.0
          ↔ (ray_march 0.0 0.0 (-K2) dx dy dz
              (blob_positions cosf sinf angle_A angle_B)).ret ≠ -1) := by
  have hfield := field_at_eye_lt cosf sinf htrig angle_A angle_B
  have hret := ray_march_from_outside 0.0 0.0 (-K2) dx dy dz
    (blob_positions cosf sinf angle_A angle_B) hfield
  have h0 : (0.0 : F) = 0 := by norm_num
  refine ⟨fun a b angle => rotate_norm cosf sinf a b angle (htrig angle), rfl, ?_, hfield,
    ?_, ?_⟩
  · intro b hb
    have h := blob_positions_norm cosf sinf htrig angle_A angle_B b hb
    exact ⟨h, lt_of_le_of_lt h (by norm_num)⟩
  · rcases hret with h | h
    · rw [h]
      norm_num
    · exact ne_of_gt h
  · rw [h0] at hret ⊢
    constructor
    · intro hpos hneg
      rw [hneg] at hpos
      exact absurd hpos (by norm_num)
    · intro hne
      rcases hret with h | h
      · exact absurd h hne
      · exact h

/-- Witness for C20: over the reals with the real cosine and sine, at angles `0` and `0`,
for the ray straight ahead. -/
theorem C20_eye_outside_surface_witness :
    (∀ a : ℝ, Real.cos a * Real.cos a + Real.sin a * Real.sin a = 1)
      ∧ metablob_field (0.0 : ℝ) 0.0 (-K2) (blob_positions Real.cos Real.sin 0 0) < THRESHOLD
      ∧ (ray_march (0.0 : ℝ) 0.0 (-K2) 0 0 1 (blob_positions Real.cos Real.sin 0 0)).ret ≠ 0 :=
  have htrig : ∀ a : ℝ, Real.cos a * Real.cos a + Real.sin a * Real.sin a = 1 := by
    intro a
    have := Real.cos_sq_add_sin_sq a
    nlinarith
  ⟨htrig, (C20_eye_outside_surface Real.cos Real.sin htrig 0 0 0 0 1).2.2.2.1,
    (C20_eye_outside_surface Real.cos Real.sin htrig 0 0 0 0 1).2.2.2.2.1⟩

/-! ### Frame compositor -/

theorem memset_full {α : Type} (buf : List α) (c : α) (n : Nat) (h : buf.length = n) :
    memset buf c n = List.replicate n c := by
  unfold memset
  rw [h, Nat.min_self, List.drop_of_length_le (le_of_eq h), List.append_nil]

/-- Rendering a cell whose slot holds the reset state stores the depth score and the glyph
of the cell when the march returned a positive distance, and leaves the reset state
otherwise. -/
theorem render_cell_reset [FloorRing F] (sqrtf : F → F) (hit0 : F × F × F) (W H : Nat)
    (blobs : List (Metablob F)) (x y : Nat) (bufs : FrameBuffers F)
    (hreset : cell_state bufs (buffer_index W x y) = (some 0, some (Char.ofNat 32))) :
    cell_state (render_cell sqrtf hit0 W H blobs x y bufs) (buffer_index W x y)
      = if (cell_march sqrtf W H blobs x y).ret > 0.0 then
          (some (1.0 / ((cell_march sqrtf W H blobs x y).ret + 1.0)),
            some (shade sqrtf ((cell_march sqrtf W H blobs x y).hit.getD hit0) blobs))
        else (some 0, some (Char.ofNat 32)) := by
  unfold cell_state at hreset
  have hz0 : bufs.z_buffer[buffer_index W x y]? = some 0 := congrArg Prod.fst hreset
  have hs0 : bufs.screen_buffer[buffer_index W x y]? = some (Char.ofNat 32) :=
    congrArg Prod.snd hreset
  have hz : buffer_index W x y < bufs.z_buffer.length := by
    by_contra hcon
    rw [List.getElem?_eq_none (not_lt.mp hcon)] at hz0
    exact absurd hz0 (by simp)
  have hs : buffer_index W x y < bufs.screen_buffer.length := by
    by_contra hcon
    rw [List.getElem?_eq_none (not_lt.mp hcon)] at hs0
    exact absurd hs0 (by simp)
  unfold render_cell
  simp only
  split_ifs with ht
  · apply depth_test_pass bufs _ _ _ hz hs
    rw [List.getD_eq_getElem?_getD, hz0]
    simp only [Option.getD_some]
    have h0 : (0.0 : F) = 0 := by norm_num
    have h1 : (1.0 : F) = 1 := by norm_num
    rw [h0] at ht
    rw [h1]
    exact div_pos one_pos (by linarith)
  · unfold cell_state
    rw [hz0, hs0]

/-- One row of the pixel loops leaves alone every index that belongs to none of its cells. -/
theorem render_row_other [FloorRing F] (sqrtf : F → F) (hit0 : F × F × F) (W H : Nat)
    (blobs : List (Metablob F)) (y j : Nat) (xs : List Nat) (bufs : FrameBuffers F)
    (hj : ∀ x ∈ xs, buffer_index W x y ≠ j) :
    cell_state (xs.foldl (fun bufs screen_x => render_cell sqrtf hit0 W H blobs screen_x y bufs)
      bufs) j = cell_state bufs j := by
  induction xs generalizing bufs with
  | nil => rfl
  | cons a xs ih =>
    simp only [List.foldl_cons]
    rw [ih _ (fun x hx => hj x (List.mem_cons_of_mem _ hx)),
      render_cell_other sqrtf hit0 W H blobs a y j bufs (hj a (List.mem_cons_self _ _))]

/-- After one row of the pixel loops, a cell of that row whose slot held the reset state
holds what `render_cell` stores for it. -/
theorem render_row_at [FloorRing F] (sqrtf : F → F) (hit0 : F × F × F) (W H : Nat)
    (blobs : List (Metablob F)) (x y : Nat) (xs : List Nat) (bufs : FrameBuffers F)
    (hnd : xs.Nodup) (hW : ∀ a ∈ xs, a < W) (hx : x ∈ xs)
    (hreset : cell_state bufs (buffer_index W x y) = (some 0, some (Char.ofNat 32))) :
    cell_state (xs.foldl (fun bufs screen_x => render_cell sqrtf hit0 W H blobs screen_x y bufs)
      bufs) (buffer_index W x y)
      = if (cell_march sqrtf W H blobs x y).ret > 0.0 then
          (some (1.0 / ((cell_march sqrtf W H blobs x y).ret + 1.0)),
            some (shade sqrtf ((cell_march sqrtf W H blobs x y).hit.getD hit0) blobs))
        else (some 0, some (Char.ofNat 32)) := by
  induction xs generalizing bufs with
  | nil => exact absurd hx (List.not_mem_nil _)
  | cons a xs ih =>
    simp only [List.foldl_cons]
    have hndc := List.nodup_cons.mp hnd
    have hxW : x < W := hW x hx
    have haW : a < W := hW a (List.mem_cons_self _ _)
    by_cases hxa : x = a
    · subst hxa
      rw [render_row_other sqrtf hit0 W H blobs y _ xs _ ?_]
      · exact render_cell_reset sqrtf hit0 W H blobs x y bufs hreset
      · intro x' hx' he
        have := (buffer_index_inj W x' y x y (hW x' (List.mem_cons_of_mem _ hx')) hxW he).1
        rw [this] at hx'
        exact hndc.1 hx'
    · have hx' : x ∈ xs := by
        rcases List.mem_cons.mp hx with h | h
        · exact absurd h hxa
        · exact h
      apply ih _ hndc.2 (fun b hb => hW b (List.mem_cons_of_mem _ hb)) hx'
      rw [render_cell_other sqrtf hit0 W H blobs a y _ bufs ?_]
      · exact hreset
      · intro he
        exact hxa (buffer_index_inj W a y x y haW hxW he).1.symm

/-- The rows `ys` of the pixel loops leave alone every index that belongs to none of their
cells. -/
theorem render_rows_other [FloorRing F] (sqrtf : F → F) (hit0 : F × F × F) (W H : Nat)
    (blobs : List (Metablob F)) (j : Nat) (ys : List Nat) (bufs : FrameBuffers F)
    (hj : ∀ y ∈ ys, ∀ x < W, buffer_index W x y ≠ j) :
    cell_state (ys.foldl (fun bufs screen_y => (List.range W).foldl
        (fun bufs screen_x => render_cell sqrtf hit0 W H blobs screen_x screen_y bufs) bufs)
      bufs) j = cell_state bufs j := by
  induction ys generalizing bufs with
  | nil => rfl
  | cons a ys ih =>
    simp only [List.foldl_cons]
    rw [ih _ (fun y hy => hj y (List.mem_cons_of_mem _ hy)),
      render_row_other sqrtf hit0 W H blobs a j (List.range W) bufs
        (fun x hx => hj a (List.mem_cons_self _ _) x (List.mem_range.mp hx))]

/-- After the rows `ys` of the pixel loops, a cell of one of those rows whose slot held the
reset state holds what `render_cell` stores for it. -/
theorem render_rows_at [FloorRing F] (sqrtf : F → F) (hit0 : F × F × F) (W H : Nat)
    (blobs : List (Metablob F)) (x y : Nat) (ys : List Nat) (bufs : FrameBuffers F)
    (hnd : ys.Nodup) (hxW : x < W) (hy : y ∈ ys)
    (hreset : cell_state bufs (buffer_index W x y) = (some 0, some (Char.ofNat 32))) :
    cell_state (ys.foldl (fun bufs screen_y => (List.range W).foldl
        (fun bufs screen_x => render_cell sqrtf hit0 W H blobs screen_x screen_y bufs) bufs)
      bufs) (buffer_index W x y)
      = if (cell_march sqrtf W H blobs x y).ret > 0.0 then
          (some (1.0 / ((cell_march sqrtf W H blobs x y).ret + 1.0)),
            some (shade sqrtf ((cell_march sqrtf W H blobs x y).hit.getD hit0) blobs))
        else (some 0, some (Char.ofNat 32)) := by
  induction ys generalizing bufs with
  | nil => exact absurd hy (List.not_mem_nil _)
  | cons a ys ih =>
    simp only [List.foldl_cons]
    have hndc := List.nodup_cons.mp hnd
    by_cases hya : y = a
    · subst hya
      rw [render_rows_other sqrtf hit0 W H blobs _ ys _ ?_]
      · exact render_row_at sqrtf hit0 W H blobs x y (List.range W) bufs (List.nodup_range W)
          (fun b hb => List.mem_range.mp hb) (List.mem_range.mpr hxW) hreset
      · intro y' hy' x' hx' he
        have := (buffer_index_inj W x' y' x y hx' hxW he).2
        rw [this] at hy'
        exact hndc.1 hy'
    · have hy' : y ∈ ys := by
        rcases List.mem_cons.mp hy with h | h
        · exact absurd h hya
        · exact h
      apply ih _ hndc.2 hy'
      rw [render_row_other sqrtf hit0 W H blobs a _ (List.range W) bufs ?_]
      · exact hreset
      · intro x' hx' he
        exact hya (buffer_index_inj W x' a x y (List.mem_range.mp hx') hxW he).2.symm

theorem render_pixels_length [FloorRing F] (sqrtf : F → F) (hit0 : F × F × F) (W H : Nat)
    (blobs : List (Metablob F)) (bufs : FrameBuffers F) :
    (render_pixels sqrtf hit0 W H blobs bufs).z_buffer.length = bufs.z_buffer.length
      ∧ (render_pixels sqrtf hit0 W H blobs bufs).screen_buffer.length
          = bufs.screen_buffer.length := by
  unfold render_pixels
  generalize List.range H = ys
  induction ys generalizing bufs with
  | nil => exact ⟨rfl, rfl⟩
  | cons a ys ih =>
    simp only [List.foldl_cons]
    have hrow : ∀ (xs : List Nat) (b : FrameBuffers F),
        (xs.foldl (fun bufs screen_x => render_cell sqrtf hit0 W H blobs screen_x a bufs)
            b).z_buffer.length = b.z_buffer.length
          ∧ (xs.foldl (fun bufs screen_x => render_cell sqrtf hit0 W H blobs screen_x a bufs)
            b).screen_buffer.length = b.screen_buffer.length := by
      intro xs
      induction xs with
      | nil => exact fun b => ⟨rfl, rfl⟩
      | cons c xs ihx =>
        intro b
        simp only [List.foldl_cons]
        rw [(ihx _).1, (ihx _).2]
        exact render_cell_length sqrtf hit0 W H blobs c a b
    rw [(ih _).1, (ih _).2]
    exact hrow (List.range W) bufs

/-- After a frame, a cell of the viewport holds the depth score and glyph of its own march
when that march returned a positive distance, and the reset state otherwise. -/
theorem render_frame_cell [FloorRing F] (sqrtf cosf sinf : F → F) (hit0 : F × F × F)
    (W H : Nat) (angle_A angle_B : F) (bufs : FrameBuffers F) (x y : Nat)
    (hz : bufs.z_buffer.length = W * H) (hs : bufs.screen_buffer.length = W * H)
    (hx : x < W) (hy : y < H) :
    cell_state (render_frame sqrtf cosf sinf hit0 W H angle_A angle_B bufs)
        (buffer_index W x y)
      = if (cell_march sqrtf W H (blob_positions cosf sinf angle_A angle_B) x y).ret > 0.0 then
          (some (1.0 / ((cell_march sqrtf W H (blob_positions cosf sinf angle_A angle_B)
              x y).ret + 1.0)),
            some (shade sqrtf ((cell_march sqrtf W H (blob_positions cosf sinf angle_A angle_B)
              x y).hit.getD hit0) (blob_positions cosf sinf angle_A angle_B)))
        else (some 0, some (Char.ofNat 32)) := by
  unfold render_frame render_pixels
  simp only
  apply render_rows_at sqrtf hit0 W H _ x y (List.range H) _ (List.nodup_range H) hx
    (List.mem_range.mpr hy)
  have hlt := buffer_index_lt W H x y hx hy
  unfold cell_state
  simp only
  rw [memset_full _ _ _ hz, memset_full _ _ _ hs, List.getElem?_replicate_of_lt hlt,
    List.getElem?_replicate_of_lt hlt]

/-- C12: after compositing one frame (with `cosf`, `sinf` satisfying `cos² + sin² = 1`, on
buffers of `W * H` cells), every cell `(x, y)` of the viewport is decided by its own march
from the eye `(0, 0, -8)` along its camera ray: when that march returns `-1` the cell holds
the reset state (depth `0`, blank glyph); when it returns a hit distance `t` the cell holds
the depth `1 / (t + 1)` and the ramp glyph at the luminance index of the dot product of the
normal at the hit point with the light `(-0.3, -0.7, 0.6)`. -/
theorem C12_frame_cell_contents [FloorRing F] (sqrtf cosf sinf : F → F)
    (htrig : ∀ a : F, cosf a * cosf a + sinf a * sinf a = 1)
    (hit0 : F × F × F) (W H : Nat) (angle_A angle_B : F) (bufs : FrameBuffers F) (x y : Nat)
    (hz : bufs.z_buffer.length = W * H) (hs : bufs.screen_buffer.length = W * H)
    (hx : x < W) (hy : y < H) :
    cell_march sqrtf W H (blob_positions cosf sinf angle_A angle_B) x y
        = ray_march 0 0 (-8)
            (ray_direction sqrtf (W : Int) (H : Int) (x : Int) (y : Int)).1
            (ray_direction sqrtf (W : Int) (H : Int) (x : Int) (y : Int)).2.1
            (ray_direction sqrtf (W : Int) (H : Int) (x : Int) (y : Int)).2.2
            (blob_positions cosf sinf angle_A angle_B)
      ∧ ((cell_march sqrtf W H (blob_positions cosf sinf angle_A angle_B) x y).ret = -1 →
          cell_state (render_frame sqrtf cosf sinf hit0 W H angle_A angle_B bufs)
              (buffer_index W x y)
            = (some 0, some (Char.ofNat 32)))
      ∧ ((cell_march sqrtf W H (blob_positions cosf sinf angle_A angle_B) x y).ret ≠ -1 →
          ∃ p : F × F × F, ∃ g : Char,
            (cell_march sqrtf W H (blob_positions cosf sinf angle_A angle_B) x y).hit = some p
              ∧ glyph_at (luminance_index
                  ((calculate_normal sqrtf p.1 p.2.1 p.2.2
                      (blob_positions cosf sinf angle_A angle_B)).1 * -0.3
                    + (calculate_normal sqrtf p.1 p.2.1 p.2.2
                      (blob_positions cosf sinf angle_A angle_B)).2.1 * -0.7
                    + (calculate_normal sqrtf p.1 p.2.1 p.2.2
                      (blob_positions cosf sinf angle_A angle_B)).2.2 * 0.6)) = some g
              ∧ cell_state (render_frame sqrtf cosf sinf hit0 W H angle_A angle_B bufs)
                  (buffer_index W x y)
                = (some (1 / ((cell_march sqrtf W H (blob_positions cosf sinf angle_A angle_B)
                    x y).ret + 1)), some g)) := by
  have hcell := render_frame_cell sqrtf cosf sinf hit0 W H angle_A angle_B bufs x y hz hs hx hy
  have h0 : (0.0 : F) = 0 := by norm_num
  have h1 : (1.0 : F) = 1 := by norm_num
  have heye : cell_march sqrtf W H (blob_positions cosf sinf angle_A angle_B) x y
      = ray_march 0.0 0.0 (-K2)
          (ray_direction sqrtf (W : Int) (H : Int) (x : Int) (y : Int)).1
          (ray_direction sqrtf (W : Int) (H : Int) (x : Int) (y : Int)).2.1
          (ray_direction sqrtf (W : Int) (H : Int) (x : Int) (y : Int)).2.2
          (blob_positions cosf sinf angle_A angle_B) := rfl
  have hret := ray_march_from_outside 0.0 0.0 (-K2)
    (ray_direction sqrtf (W : Int) (H : Int) (x : Int) (y : Int)).1
    (ray_direction sqrtf (W : Int) (H : Int) (x : Int) (y : Int)).2.1
    (ray_direction sqrtf (W : Int) (H : Int) (x : Int) (y : Int)).2.2
    (blob_positions cosf sinf angle_A angle_B)
    (field_at_eye_lt cosf sinf htrig angle_A angle_B)
  rw [← heye] at hret
  refine ⟨?_, ?_, ?_⟩
  · rw [heye]
    have hK : (-K2 : F) = -8 := by
      unfold K2
      norm_num
    rw [h0, hK]
  · intro hm
    rw [hcell, if_neg]
    rw [hm, h0]
    norm_num
  · intro hne
    have hpos : 0 < (cell_march sqrtf W H (blob_positions cosf sinf angle_A angle_B) x y).ret := by
      rcases hret with h | h
      · exact absurd h hne
      · exact h
    have hhit : ∃ p, (cell_march sqrtf W H (blob_positions cosf sinf angle_A angle_B) x y).hit
        = some p := by
      rw [heye] at hne ⊢
      unfold ray_march at hne ⊢
      obtain ⟨-, -, hcase⟩ := ray_march_loop_spec (0.0 : F) 0.0 (-K2)
        (ray_direction sqrtf (W : Int) (H : Int) (x : Int) (y : Int)).1
        (ray_direction sqrtf (W : Int) (H : Int) (x : Int) (y : Int)).2.1
        (ray_direction sqrtf (W : Int) (H : Int) (x : Int) (y : Int)).2.2
        (blob_positions cosf sinf angle_A angle_B) MAX_STEPS 0.0
      rcases hcase with ⟨hm, -⟩ | ⟨-, h2, -⟩
      · exact absurd hm hne
      · exact ⟨_, h2⟩
    obtain ⟨p, hp⟩ := hhit
    obtain ⟨hlo, hhi⟩ := luminance_index_range
      ((calculate_normal sqrtf p.1 p.2.1 p.2.2
          (blob_positions cosf sinf angle_A angle_B)).1 * -0.3
        + (calculate_normal sqrtf p.1 p.2.1 p.2.2
          (blob_positions cosf sinf angle_A angle_B)).2.1 * -0.7
        + (calculate_normal sqrtf p.1 p.2.1 p.2.2
          (blob_positions cosf sinf angle_A angle_B)).2.2 * 0.6)
    obtain ⟨g, hg, -⟩ := glyph_at_ramp _ hlo hhi
    refine ⟨p, g, hp, hg, ?_⟩
    rw [hcell, if_pos (by rw [h0]; exact hpos), hp, h1]
    simp only [Option.getD_some, shade, hg]

/-- Witness for C12: over the reals with the real square root, cosine and sine, the 80x22
viewport at angles `0`, `0`, buffers of `80 * 22` cells, and the cell `(40, 12)`. -/
theorem C12_frame_cell_contents_witness :
    ((∀ a : ℝ, Real.cos a * Real.cos a + Real.sin a * Real.sin a = 1)
        ∧ (List.replicate (80 * 22) (7 : ℝ)).length = 80 * 22
        ∧ (List.replicate (80 * 22) (Char.ofNat 35)).length = 80 * 22
        ∧ 40 < 80 ∧ 12 < 22)
      ∧ ((cell_march Real.sqrt 80 22 (blob_positions Real.cos Real.sin 0 0) 40 12).ret = -1 →
          cell_state (render_frame Real.sqrt Real.cos Real.sin (0, 0, 0) 80 22 0 0
              ⟨List.replicate (80 * 22) (7 : ℝ), List.replicate (80 * 22) (Char.ofNat 35)⟩)
              (buffer_index 80 40 12)
            = (some 0, some (Char.ofNat 32))) :=
  have htrig : ∀ a : ℝ, Real.cos a * Real.cos a + Real.sin a * Real.sin a = 1 := by
    intro a
    have := Real.cos_sq_add_sin_sq a
    nlinarith
  ⟨⟨htrig, List.length_replicate _ _, List.length_replicate _ _, by norm_num, by norm_num⟩,
    (C12_frame_cell_contents Real.sqrt Real.cos Real.sin htrig (0, 0, 0) 80 22 0 0
      ⟨List.replicate (80 * 22) (7 : ℝ), List.replicate (80 * 22) (Char.ofNat 35)⟩ 40 12
      (List.length_replicate _ _) (List.length_replicate _ _) (by norm_num)
      (by norm_num)).2.1⟩

theorem render_frame_eq [FloorRing F] (sqrtf cosf sinf : F → F) (hit0 : F × F × F)
    (W H : Nat) (angle_A angle_B : F) (bufs : FrameBuffers F)
    (hz : bufs.z_buffer.length = W * H) (hs : bufs.screen_buffer.length = W * H) :
    render_frame sqrtf cosf sinf hit0 W H angle_A angle_B bufs
      = render_pixels sqrtf hit0 W H (blob_positions cosf sinf angle_A angle_B)
          ⟨List.replicate (W * H) 0, List.replicate (W * H) (Char.ofNat 32)⟩ := by
  unfold render_frame
  simp only
  rw [memset_full _ _ _ hz, memset_full _ _ _ hs]

/-- C14: for a fixed viewport and fixed angles, the buffers after compositing a frame do
not depend on what the `W * H`-cell buffers held before; in particular rendering the frame
again on top of its own output gives the same buffers. -/
theorem C14_render_frame_idempotent [FloorRing F] (sqrtf cosf sinf : F → F)
    (hit0 : F × F × F) (W H : Nat) (angle_A angle_B : F) (b b' : FrameBuffers F)
    (hz : b.z_buffer.length = W * H) (hs : b.screen_buffer.length = W * H)
    (hz' : b'.z_buffer.length = W * H) (hs' : b'.screen_buffer.length = W * H) :
    render_frame sqrtf cosf sinf hit0 W H angle_A angle_B b
        = render_frame sqrtf cosf sinf hit0 W H angle_A angle_B b'
      ∧ render_frame sqrtf cosf sinf hit0 W H angle_A angle_B
          (render_frame sqrtf cosf sinf hit0 W H angle_A angle_B b)
        = render_frame sqrtf cosf sinf hit0 W H angle_A angle_B b := by
  have e := render_frame_eq sqrtf cosf sinf hit0 W H angle_A angle_B b hz hs
  have e' := render_frame_eq sqrtf cosf sinf hit0 W H angle_A angle_B b' hz' hs'
  have hlen := render_pixels_length sqrtf hit0 W H (blob_positions cosf sinf angle_A angle_B)
    ⟨List.replicate (W * H) 0, List.replicate (W * H) (Char.ofNat 32)⟩
  refine ⟨by rw [e, e'], ?_⟩
  rw [render_frame_eq sqrtf cosf sinf hit0 W H angle_A angle_B _ ?_ ?_]
  · exact e.symm
  · rw [e, hlen.1]
    exact List.length_replicate _ _
  · rw [e, hlen.2]
    exact List.length_replicate _ _

/-- Witness for C14: over the reals, the 80x22 viewport at angles `1`, `2`, starting from
buffers full of depth `7` and the glyph `#` and from buffers full of depth `0` and blanks. -/
theorem C14_render_frame_idempotent_witness :
    ((List.replicate (80 * 22) (7 : ℝ)).length = 80 * 22
        ∧ (List.replicate (80 * 22) (Char.ofNat 35)).length = 80 * 22)
      ∧ render_frame Real.sqrt Real.cos Real.sin (0, 0, 0) 80 22 1 2
          ⟨List.replicate (80 * 22) (7 : ℝ), List.replicate (80 * 22) (Char.ofNat 35)⟩
        = render_frame Real.sqrt Real.cos Real.sin (0, 0, 0) 80 22 1 2
          ⟨List.replicate (80 * 22) (0 : ℝ), List.replicate (80 * 22) (Char.ofNat 32)⟩ :=
  ⟨⟨List.length_replicate _ _, List.length_replicate _ _⟩,
    (C14_render_frame_idempotent Real.sqrt Real.cos Real.sin (0, 0, 0) 80 22 1 2
      ⟨List.replicate (80 * 22) (7 : ℝ), List.replicate (80 * 22) (Char.ofNat 35)⟩
      ⟨List.replicate (80 * 22) (0 : ℝ), List.replicate (80 * 22) (Char.ofNat 32)⟩
      (List.length_replicate _ _) (List.length_replicate _ _)
      (List.length_replicate _ _) (List.length_replicate _ _)).1⟩

/-! ### Rounded arithmetic: the rounding function -/

theorem round_half_even_cases (z : ℚ) :
    round_half_even z = ⌊z⌋ ∨ round_half_even z = ⌊z⌋ + 1 := by
  unfold round_half_even
  split_ifs <;> simp

/-- The rounded integer is within one half of the argument. -/
theorem round_half_even_close (z : ℚ) :
    (round_half_even z : ℚ) - z ≤ 1 / 2 ∧ z - (round_half_even z : ℚ) ≤ 1 / 2 := by
  have h1 := Int.floor_le z
  have h2 := Int.lt_floor_add_one z
  unfold round_half_even
  split_ifs with ha hb hc
  · constructor <;> linarith
  · push_cast
    constructor <;> linarith
  · have he : z - ⌊z⌋ = 1 / 2 := le_antisymm (not_lt.mp hb) (not_lt.mp ha)
    constructor <;> linarith
  · have he : z - ⌊z⌋ = 1 / 2 := le_antisymm (not_lt.mp hb) (not_lt.mp ha)
    push_cast
    constructor <;> linarith

theorem round_half_even_intCast (n : Int) : round_half_even (n : ℚ) = n := by
  unfold round_half_even
  rw [Int.floor_intCast, sub_self, if_pos (by norm_num)]

/-- An argument within less than one half of an integer rounds to that integer. -/
theorem round_half_even_eq (z : ℚ) (n : Int) (h1 : (n : ℚ) - z < 1 / 2)
    (h2 : z - (n : ℚ) < 1 / 2) : round_half_even z = n := by
  obtain ⟨h3, h4⟩ := round_half_even_close z
  have h5 : ((round_half_even z - n : Int) : ℚ) < 1 := by
    push_cast
    linarith
  have h6 : ((-1 : Int) : ℚ) < ((round_half_even z - n : Int) : ℚ) := by
    push_cast
    linarith
  have h7 : round_half_even z - n < 1 := by exact_mod_cast h5
  have h8 : -1 < round_half_even z - n := by exact_mod_cast h6
  omega

theorem round_half_even_mono (z w : ℚ) (h : z ≤ w) : round_half_even z ≤ round_half_even w := by
  by_contra hcon
  have hlt : round_half_even w + 1 ≤ round_half_even z := by omega
  have hltq : (round_half_even w : ℚ) + 1 ≤ (round_half_even z : ℚ) := by exact_mod_cast hlt
  obtain ⟨hz1, hz2⟩ := round_half_even_close z
  obtain ⟨hw1, hw2⟩ := round_half_even_close w
  have hzw : z = w := by linarith
  rw [hzw] at hcon
  exact hcon le_rfl

theorem round_half_even_nonneg (z : ℚ) (h : 0 ≤ z) : 0 ≤ round_half_even z := by
  have := round_half_even_mono 0 z h
  have h0 : round_half_even 0 = 0 := by
    have := round_half_even_intCast 0
    simpa using this
  rw [h0] at this
  exact this

theorem binary32_zero : binary32 0 = 0 := by
  unfold binary32
  rw [if_pos rfl]

/-- The exponent used for a non-zero `x` in the binade `2^e <= |x| < 2^(e+1)`. -/
theorem int_log_eq (x : ℚ) (e : Int) (h1 : (2 : ℚ) ^ e ≤ |x|) (h2 : |x| < (2 : ℚ) ^ (e + 1)) :
    Int.log 2 |x| = e := by
  have hpos : 0 < |x| := lt_of_lt_of_le (zpow_pos (by norm_num) e) h1
  have ha : e ≤ Int.log 2 |x| := by
    rw [← Int.zpow_le_iff_le_log (by norm_num) hpos]
    simpa using h1
  have hb : Int.log 2 |x| < e + 1 := by
    rw [← Int.lt_zpow_iff_log_lt (by norm_num) hpos]
    simpa using h2
  omega

/-- In the binade `2^e <= |x| < 2^(e+1)`, `e >= -126`, rounding keeps 24 significant bits:
`x` is rounded to a multiple of `2^(e-23)`. -/
theorem binary32_of_binade (x : ℚ) (e : Int) (h1 : (2 : ℚ) ^ e ≤ |x|)
    (h2 : |x| < (2 : ℚ) ^ (e + 1)) (he : -126 ≤ e) :
    binary32 x = (round_half_even (x / 2 ^ (e - 23)) : ℚ) * 2 ^ (e - 23) := by
  have hpos : 0 < |x| := lt_of_lt_of_le (zpow_pos (by norm_num) e) h1
  have hx : x ≠ 0 := abs_pos.mp hpos
  unfold binary32
  rw [if_neg hx, int_log_eq x e h1 h2, max_eq_left he]

theorem binary32_of_binade_pos (x : ℚ) (e : Int) (h1 : (2 : ℚ) ^ e ≤ x)
    (h2 : x < (2 : ℚ) ^ (e + 1)) (he : -126 ≤ e) :
    binary32 x = (round_half_even (x / 2 ^ (e - 23)) : ℚ) * 2 ^ (e - 23) := by
  have hpos : 0 < x := lt_of_lt_of_le (zpow_pos (by norm_num) e) h1
  have habs : |x| = x := abs_of_pos hpos
  exact binary32_of_binade x e (by rw [habs]; exact h1) (by rw [habs]; exact h2) he

/-- Integers of magnitude below `2^24` are `float`s: rounding leaves them as they are. -/
theorem binary32_intCast (n : Int) (h : |(n : ℚ)| < 2 ^ 24) : binary32 (n : ℚ) = n := by
  by_cases hn : n = 0
  · rw [hn]
    simpa using binary32_zero
  have hx : (n : ℚ) ≠ 0 := by exact_mod_cast hn
  have hpos : 0 < |(n : ℚ)| := abs_pos.mpr hx
  have hone : (1 : ℚ) ≤ |(n : ℚ)| := by
    have : (1 : Int) ≤ |n| := Int.one_le_abs hn
    exact_mod_cast this
  have he0 : 0 ≤ Int.log 2 |(n : ℚ)| := by
    rw [← Int.zpow_le_iff_le_log (by norm_num) hpos]
    simpa using hone
  have he1 : Int.log 2 |(n : ℚ)| < 24 := by
    rw [← Int.lt_zpow_iff_log_lt (by norm_num) hpos]
    have h24 : (((2 : ℕ) : ℚ)) ^ (24 : Int) = 2 ^ 24 := by norm_num
    rw [h24]
    exact h
  unfold binary32
  rw [if_neg hx, max_eq_left (by omega)]
  generalize Int.log 2 |(n : ℚ)| = e at he0 he1
  obtain ⟨k, hk⟩ : ∃ k : ℕ, e - 23 = -(k : Int) := ⟨(23 - e).toNat, by omega⟩
  rw [hk, zpow_neg, zpow_natCast]
  have hk2 : (2 : ℚ) ^ k ≠ 0 := pow_ne_zero _ (by norm_num)
  have hz : (n : ℚ) / ((2 : ℚ) ^ k)⁻¹ = ((n * 2 ^ k : Int) : ℚ) := by
    push_cast
    field_simp
  rw [hz, round_half_even_intCast]
  push_cast
  field_simp

theorem binary32_nonneg (x : ℚ) (h : 0 ≤ x) : 0 ≤ binary32 x := by
  unfold binary32
  split_ifs with hx
  · exact le_refl _
  · have hu : (0 : ℚ) < 2 ^ (max (Int.log 2 |x|) (-126) - 23) := zpow_pos (by norm_num) _
    have hz : 0 ≤ round_half_even (x / 2 ^ (max (Int.log 2 |x|) (-126) - 23)) :=
      round_half_even_nonneg _ (div_nonneg h (le_of_lt hu))
    have hzq : (0 : ℚ) ≤ (round_half_even (x / 2 ^ (max (Int.log 2 |x|) (-126) - 23)) : ℚ) := by
      exact_mod_cast hz
    exact mul_nonneg hzq (le_of_lt hu)

/-- Rounding a non-negative number raises it by at most the relative error `2^-24` plus
`2^-150`. -/
theorem binary32_le (x : ℚ) (h : 0 ≤ x) : binary32 x ≤ x + x / 2 ^ 24 + 1 / 2 ^ 150 := by
  by_cases hx : x = 0
  · rw [hx, binary32_zero]
    norm_num
  have hpos : 0 < x := lt_of_le_of_ne h (Ne.symm hx)
  have habs : |x| = x := abs_of_pos hpos
  unfold binary32
  rw [if_neg hx, habs]
  have hlog : (2 : ℚ) ^ Int.log 2 x ≤ x := by
    have := Int.zpow_log_le_self (b := 2) (r := x) (by norm_num) hpos
    simpa using this
  have he : (2 : ℚ) ^ (max (Int.log 2 x) (-126)) ≤ x + 1 / 2 ^ 126 := by
    rcases le_total (Int.log 2 x) (-126) with hc | hc
    · rw [max_eq_right hc]
      have e : (2 : ℚ) ^ (-126 : Int) = 1 / 2 ^ 126 := by
        rw [zpow_neg]
        norm_num
      rw [e]
      linarith
    · rw [max_eq_left hc]
      have : (0 : ℚ) < 1 / 2 ^ 126 := by positivity
      linarith
  generalize max (Int.log 2 x) (-126) = e at he
  have hu : (2 : ℚ) ^ (e - 23) = 2 ^ e / 2 ^ 23 := by
    rw [zpow_sub₀ (by norm_num)]
    norm_num
  have hupos : (0 : ℚ) < 2 ^ (e - 23) := zpow_pos (by norm_num) _
  obtain ⟨hc, -⟩ := round_half_even_close (x / 2 ^ (e - 23))
  have hmul : (round_half_even (x / 2 ^ (e - 23)) : ℚ) * 2 ^ (e - 23)
      ≤ (x / 2 ^ (e - 23) + 1 / 2) * 2 ^ (e - 23) :=
    mul_le_mul_of_nonneg_right (by linarith) (le_of_lt hupos)
  have hexp : (x / 2 ^ (e - 23) + 1 / 2) * (2 : ℚ) ^ (e - 23) = x + 2 ^ (e - 23) / 2 := by
    field_simp
    ring
  rw [hexp] at hmul
  have hfin : (2 : ℚ) ^ e / 2 ^ 23 / 2 ≤ x / 2 ^ 24 + 1 / 2 ^ 150 := by
    have e1 : (2 : ℚ) ^ e / 2 ^ 23 / 2 = 2 ^ e / 2 ^ 24 := by
      norm_num
      ring
    have e2 : x / 2 ^ 24 + 1 / 2 ^ 150 = (x + 1 / 2 ^ 126) / 2 ^ 24 := by
      norm_num
      ring
    rw [e1, e2]
    exact div_le_div_of_nonneg_right he (by positivity)
  rw [← hu] at hfin
  linarith

/-- On the non-negative numbers rounding is monotone. -/
theorem binary32_mono (x y : ℚ) (hx : 0 ≤ x) (hxy : x ≤ y) : binary32 x ≤ binary32 y := by
  by_cases hx0 : x = 0
  · rw [hx0, binary32_zero]
    exact binary32_nonneg y (le_trans hx hxy)
  have hxpos : 0 < x := lt_of_le_of_ne hx (Ne.symm hx0)
  have hypos : 0 < y := lt_of_lt_of_le hxpos hxy
  have hy0 : y ≠ 0 := ne_of_gt hypos
  have hlog : Int.log 2 x ≤ Int.log 2 y := Int.log_mono_right hxpos hxy
  unfold binary32
  rw [if_neg hx0, if_neg hy0, abs_of_pos hxpos, abs_of_pos hypos]
  rcases eq_or_lt_of_le (max_le_max_right (-126) hlog) with heq | hlt
  · rw [heq]
    have hupos : (0 : ℚ) < 2 ^ (max (Int.log 2 y) (-126) - 23) := zpow_pos (by norm_num) _
    have hm := round_half_even_mono _ _
      (div_le_div_of_nonneg_right hxy (le_of_lt hupos))
    have hmq : (round_half_even (x / 2 ^ (max (Int.log 2 y) (-126) - 23)) : ℚ)
        ≤ (round_half_even (y / 2 ^ (max (Int.log 2 y) (-126) - 23)) : ℚ) := by
      exact_mod_cast hm
    exact mul_le_mul_of_nonneg_right hmq (le_of_lt hupos)
  · have hey : max (Int.log 2 y) (-126) = Int.log 2 y := by
      apply max_eq_left
      have := le_max_right (Int.log 2 x) (-126)
      have h2 := le_max_left (Int.log 2 y) (-126)
      by_contra hcon
      have : max (Int.log 2 y) (-126) = -126 := max_eq_right (by omega)
      omega
    have hexl : Int.log 2 x ≤ max (Int.log 2 x) (-126) := le_max_left _ _
    rw [hey] at hlt ⊢
    generalize max (Int.log 2 x) (-126) = ex at hlt hexl
    -- the rounded `x` is at most `2^(ex+1)`
    have hxlt : x < (2 : ℚ) ^ (ex + 1) := by
      have h1 := Int.lt_zpow_succ_log_self (b := 2) (by norm_num) x
      have h2 : (2 : ℚ) ^ (Int.log 2 x + 1) ≤ 2 ^ (ex + 1) :=
        zpow_le_zpow_right₀ (by norm_num) (by omega)
      have h1' : x < (2 : ℚ) ^ (Int.log 2 x + 1) := by simpa using h1
      exact lt_of_lt_of_le h1' h2
    have huxpos : (0 : ℚ) < 2 ^ (ex - 23) := zpow_pos (by norm_num) _
    have hsplit : (2 : ℚ) ^ (ex + 1) = 16777216 * 2 ^ (ex - 23) := by
      have : ex + 1 = 24 + (ex - 23) := by ring
      rw [this, zpow_add₀ (by norm_num)]
      norm_num
    have hzx : x / 2 ^ (ex - 23) ≤ ((16777216 : Int) : ℚ) := by
      rw [div_le_iff₀ huxpos]
      push_cast
      rw [← hsplit]
      exact le_of_lt hxlt
    have hrx := round_half_even_mono _ _ hzx
    rw [round_half_even_intCast] at hrx
    have hrxq : (round_half_even (x / 2 ^ (ex - 23)) : ℚ) ≤ 16777216 := by exact_mod_cast hrx
    have hRx : (round_half_even (x / 2 ^ (ex - 23)) : ℚ) * 2 ^ (ex - 23) ≤ 2 ^ (ex + 1) := by
      rw [hsplit]
      exact mul_le_mul_of_nonneg_right hrxq (le_of_lt huxpos)
    -- the rounded `y` is at least `2^(log y)`
    have hylog : (2 : ℚ) ^ Int.log 2 y ≤ y := by
      have := Int.zpow_log_le_self (b := 2) (r := y) (by norm_num) hypos
      simpa using this
    have huypos : (0 : ℚ) < 2 ^ (Int.log 2 y - 23) := zpow_pos (by norm_num) _
    have hsplity : (2 : ℚ) ^ Int.log 2 y = 8388608 * 2 ^ (Int.log 2 y - 23) := by
      have : Int.log 2 y = 23 + (Int.log 2 y - 23) := by ring
      nth_rewrite 1 [this]
      rw [zpow_add₀ (by norm_num)]
      norm_num
    have hzy : ((8388608 : Int) : ℚ) ≤ y / 2 ^ (Int.log 2 y - 23) := by
      rw [le_div_iff₀ huypos]
      push_cast
      rw [← hsplity]
      exact hylog
    have hry := round_half_even_mono _ _ hzy
    rw [round_half_even_intCast] at hry
    have hryq : (8388608 : ℚ) ≤ (round_half_even (y / 2 ^ (Int.log 2 y - 23)) : ℚ) := by
      exact_mod_cast hry
    have hRy : (2 : ℚ) ^ Int.log 2 y
        ≤ (round_half_even (y / 2 ^ (Int.log 2 y - 23)) : ℚ) * 2 ^ (Int.log 2 y - 23) := by
      rw [hsplity]
      exact mul_le_mul_of_nonneg_right hryq (le_of_lt huypos)
    have hmid : (2 : ℚ) ^ (ex + 1) ≤ 2 ^ Int.log 2 y :=
      zpow_le_zpow_right₀ (by norm_num) (by omega)
    linarith

/-! ### Rounded arithmetic: the field -/

/-- With the identity as rounding, the rounded field is the exact field. -/
theorem metablob_field_fl_id (px py pz : ℚ) (blobs : List (Metablob ℚ)) :
    metablob_field_fl (fun x => x) px py pz blobs = metablob_field px py pz blobs := by
  unfold metablob_field_fl metablob_field dist_sq_fl
  have h0 : (0.0 : ℚ) = 0 := by norm_num
  rw [h0]

/-- With the identity as rounding, the rounded march is the exact march. -/
theorem ray_march_loop_fl_id (ox oy oz dx dy dz : ℚ) (blobs : List (Metablob ℚ))
    (n : Nat) (t : ℚ) :
    ray_march_loop_fl (fun x => x) ox oy oz dx dy dz blobs n t
      = ray_march_loop ox oy oz dx dy dz blobs n t := by
  induction n generalizing t with
  | zero => rfl
  | succ n ih =>
    simp only [ray_march_loop_fl, ray_march_loop, metablob_field_fl_id, ih]

/-- In rounded arithmetic, for a rounding that fixes `0` and is monotone on the non-negative
numbers: when the computed squared distance from `p` to every blob exceeds the cut-off and
the computed squared distance from `q` is at least as large, the field at `q` is at most
the field at `p`. -/
theorem metablob_field_fl_antitone (fl : ℚ → ℚ) (h0 : fl 0 = 0)
    (hmono : ∀ x y : ℚ, 0 ≤ x → x ≤ y → fl x ≤ fl y)
    (px py pz qx qy qz : ℚ) (blobs : List (Metablob ℚ))
    (hp : ∀ b ∈ blobs, dist_sq_fl fl px py pz b > fl 0.0001)
    (hq : ∀ b ∈ blobs, dist_sq_fl fl qx qy qz b ≥ dist_sq_fl fl px py pz b) :
    metablob_field_fl fl qx qy qz blobs ≤ metablob_field_fl fl px py pz blobs := by
  have hnn : ∀ x : ℚ, 0 ≤ x → 0 ≤ fl x := by
    intro x hx
    have := hmono 0 x le_rfl hx
    rw [h0] at this
    exact this
  have hcut : 0 ≤ fl 0.0001 := hnn _ (by norm_num)
  have hC : 0 ≤ fl (fl METABLOB_RADIUS * fl METABLOB_RADIUS) := hnn _ (mul_self_nonneg _)
  have key : ∀ (bs : List (Metablob ℚ)) (aq ap : ℚ), 0 ≤ aq → aq ≤ ap →
      (∀ b ∈ bs, dist_sq_fl fl px py pz b > fl 0.0001) →
      (∀ b ∈ bs, dist_sq_fl fl qx qy qz b ≥ dist_sq_fl fl px py pz b) →
      bs.foldl
          (fun sum b =>
            let dist_sq := dist_sq_fl fl qx qy qz b
            if dist_sq > fl 0.0001 then
              fl (sum + fl (fl (fl METABLOB_RADIUS * fl METABLOB_RADIUS) / dist_sq))
            else sum) aq
        ≤ bs.foldl
          (fun sum b =>
            let dist_sq := dist_sq_fl fl px py pz b
            if dist_sq > fl 0.0001 then
              fl (sum + fl (fl (fl METABLOB_RADIUS * fl METABLOB_RADIUS) / dist_sq))
            else sum) ap := by
    intro bs
    induction bs with
    | nil =>
      intro aq ap _ h _ _
      exact h
    | cons b bs ih =>
      intro aq ap haq hle hp' hq'
      simp only [List.foldl_cons]
      have hpb := hp' b (List.mem_cons_self _ _)
      have hqb := hq' b (List.mem_cons_self _ _)
      have hqcut : dist_sq_fl fl qx qy qz b > fl 0.0001 := lt_of_lt_of_le hpb hqb
      have hppos : 0 < dist_sq_fl fl px py pz b := lt_of_le_of_lt hcut hpb
      have hqpos : 0 < dist_sq_fl fl qx qy qz b := lt_of_le_of_lt hcut hqcut
      rw [if_pos hpb, if_pos hqcut]
      have hdiv : fl (fl METABLOB_RADIUS * fl METABLOB_RADIUS) / dist_sq_fl fl qx qy qz b
          ≤ fl (fl METABLOB_RADIUS * fl METABLOB_RADIUS) / dist_sq_fl fl px py pz b :=
        div_le_div_of_nonneg_left hC hppos hqb
      have hdq : 0 ≤ fl (fl METABLOB_RADIUS * fl METABLOB_RADIUS) / dist_sq_fl fl qx qy qz b :=
        div_nonneg hC (le_of_lt hqpos)
      have hterm := hmono _ _ hdq hdiv
      have htq := hnn _ hdq
      apply ih
      · exact hnn _ (add_nonneg haq htq)
      · exact hmono _ _ (add_nonneg haq htq) (add_le_add hle hterm)
      · exact fun c hc => hp' c (List.mem_cons_of_mem _ hc)
      · exact fun c hc => hq' c (List.mem_cons_of_mem _ hc)
  unfold metablob_field_fl
  have h00 : fl 0.0 = 0 := by
    have : (0.0 : ℚ) = 0 := by norm_num
    rw [this, h0]
  rw [h00]
  exact key blobs 0 0 le_rfl le_rfl hp hq

/-- Powers of two `2^-20` and `2^-40` are `float`s, and `1 + 2^-40` rounds to `1`. -/
theorem binary32_small_powers :
    binary32 (1 / 2 ^ 20) = 1 / 2 ^ 20 ∧ binary32 (1 / 2 ^ 40) = 1 / 2 ^ 40
      ∧ binary32 (1 / 2 ^ 40 + 1) = 1 := by
  refine ⟨?_, ?_, ?_⟩
  · rw [binary32_of_binade_pos (1 / 2 ^ 20) (-20) (by rw [zpow_neg]; norm_num)
      (by norm_num [zpow_neg]) (by norm_num)]
    have hz : (1 : ℚ) / 2 ^ 20 / 2 ^ ((-20 : Int) - 23) = ((8388608 : Int) : ℚ) := by
      norm_num [zpow_neg]
    rw [hz, round_half_even_intCast]
    norm_num [zpow_neg]
  · rw [binary32_of_binade_pos (1 / 2 ^ 40) (-40) (by rw [zpow_neg]; norm_num)
      (by norm_num [zpow_neg]) (by norm_num)]
    have hz : (1 : ℚ) / 2 ^ 40 / 2 ^ ((-40 : Int) - 23) = ((8388608 : Int) : ℚ) := by
      norm_num [zpow_neg]
    rw [hz, round_half_even_intCast]
    norm_num [zpow_neg]
  · rw [binary32_of_binade_pos (1 / 2 ^ 40 + 1) 0 (by norm_num) (by norm_num) (by norm_num)]
    have hz : round_half_even ((1 / 2 ^ 40 + 1) / 2 ^ ((0 : Int) - 23)) = 8388608 := by
      apply round_half_even_eq
      · norm_num [zpow_neg]
      · norm_num [zpow_neg]
    rw [hz]
    norm_num [zpow_neg]

theorem binary32_one : binary32 1 = 1 := by
  have := binary32_intCast 1 (by norm_num)
  simpa using this

/-- A cruder form of the rounding bound, convenient for estimates. -/
theorem binary32_le_crude (x : ℚ) (h : 0 ≤ x) : binary32 x ≤ x * (1001 / 1000) + 1 / 1000 := by
  have h1 := binary32_le x h
  have h2 : x / 2 ^ 24 ≤ x * (1 / 1000) := by
    rw [div_eq_mul_one_div]
    exact mul_le_mul_of_nonneg_left (by norm_num) h
  have h3 : (1 : ℚ) / 2 ^ 150 ≤ 1 / 1000 := by norm_num
  linarith

/-- With one blob, the rounded field is the one guarded term. -/
theorem metablob_field_fl_single (fl : ℚ → ℚ) (px py pz : ℚ) (b : Metablob ℚ) :
    metablob_field_fl fl px py pz [b]
      = if dist_sq_fl fl px py pz b > fl 0.0001 then
          fl (fl 0.0 + fl (fl (fl METABLOB_RADIUS * fl METABLOB_RADIUS)
            / dist_sq_fl fl px py pz b))
        else fl 0.0 := rfl

/-- On the `x` axis, when the point and the blob are an integer `j` apart with
`|j| <= 4000`, the computed squared distance is exactly `j * j`. -/
theorem dist_sq_fl_axis (px bx : ℚ) (j : Int) (hd : px - bx = (j : ℚ))
    (hj : |(j : ℚ)| ≤ 4000) :
    dist_sq_fl binary32 px 0 0 ⟨bx, 0, 0⟩ = (j : ℚ) * (j : ℚ) := by
  have hjj : |((j * j : Int) : ℚ)| < 2 ^ 24 := by
    push_cast
    rw [abs_mul]
    have h0 := abs_nonneg (j : ℚ)
    have : |(j : ℚ)| * |(j : ℚ)| ≤ 4000 * 4000 := mul_le_mul hj hj h0 (by norm_num)
    refine lt_of_le_of_lt this ?_
    norm_num
  have hj1 : binary32 (j : ℚ) = j := binary32_intCast j (lt_of_le_of_lt hj (by norm_num))
  have hj2 : binary32 ((j : ℚ) * (j : ℚ)) = (j : ℚ) * (j : ℚ) := by
    have := binary32_intCast (j * j) hjj
    push_cast at this
    exact this
  unfold dist_sq_fl
  simp only
  rw [hd, hj1]
  simp only [sub_zero, binary32_zero, mul_zero, add_zero, hj2]

/-- C2 as stated fails: (1) with one blob at the origin, `q = (1, 0, 0)` is strictly
farther from the blob than `p = (0, 0, 0)`, yet the field at `q` is `1.44` and the field at
`p` is `0` (the blob is inside the cut-off at `p`); (2) for the empty blob list the premise
holds for all `p`, `q` while both field values are `0`; (3) on the `float`s of the program,
with one blob at the origin, `q = (2^-20, 1, 0)` is strictly farther than `p = (0, 1, 0)`,
both outside the cut-off, yet in binary32 arithmetic both squared distances are computed as
`1` and the two field values are equal. -/
theorem C2_counterexample :
    ((∀ b ∈ ([⟨0, 0, 0⟩] : List (Metablob ℚ)),
          squared_distance 1 0 0 b > squared_distance 0 0 0 b)
        ∧ ¬ (metablob_field (1 : ℚ) 0 0 [⟨0, 0, 0⟩] < metablob_field 0 0 0 [⟨0, 0, 0⟩]))
      ∧ ((∀ b ∈ ([] : List (Metablob ℚ)),
          squared_distance 1 0 0 b > squared_distance 0 0 0 b)
        ∧ ¬ (metablob_field (1 : ℚ) 0 0 [] < metablob_field 0 0 0 []))
      ∧ ((∀ b ∈ ([⟨0, 0, 0⟩] : List (Metablob ℚ)),
          squared_distance (1 / 2 ^ 20) 1 0 b > squared_distance 0 1 0 b
            ∧ squared_distance 0 1 0 b > 0.0001)
        ∧ (binary32 (1 / 2 ^ 20) = 1 / 2 ^ 20 ∧ binary32 1 = 1 ∧ binary32 0 = 0)
        ∧ ¬ (metablob_field_fl binary32 (1 / 2 ^ 20) 1 0 [⟨0, 0, 0⟩]
              < metablob_field_fl binary32 0 1 0 [⟨0, 0, 0⟩])) := by
  obtain ⟨hp20, hp40, hsum⟩ := binary32_small_powers
  refine ⟨⟨?_, ?_⟩, ⟨?_, ?_⟩, ?_, ⟨hp20, binary32_one, binary32_zero⟩, ?_⟩
  · intro b hb
    simp only [List.mem_singleton] at hb
    subst hb
    norm_num [squared_distance]
  · norm_num [metablob_field, METABLOB_RADIUS]
  · intro b hb
    simp at hb
  · norm_num [metablob_field]
  · intro b hb
    simp only [List.mem_singleton] at hb
    subst hb
    norm_num [squared_distance]
  · have hq : dist_sq_fl binary32 (1 / 2 ^ 20) 1 0 ⟨0, 0, 0⟩ = 1 := by
      unfold dist_sq_fl
      simp only [sub_zero, mul_zero, mul_one, add_zero, binary32_zero, binary32_one, hp20]
      have e : (1 : ℚ) / 2 ^ 20 * (1 / 2 ^ 20) = 1 / 2 ^ 40 := by norm_num
      rw [e, hp40, hsum, binary32_one]
    have hp : dist_sq_fl binary32 0 1 0 ⟨0, 0, 0⟩ = 1 := by
      unfold dist_sq_fl
      simp only [sub_zero, mul_zero, mul_one, add_zero, zero_add, binary32_zero, binary32_one]
    rw [metablob_field_fl_single, metablob_field_fl_single, hq, hp]
    exact lt_irrefl _

/-- C2 (as amended): for a non-empty blob list and a point `p` whose squared distance to
every blob exceeds the cut-off `0.0001`: in exact arithmetic, every point `q` that is
strictly farther than `p` from every blob has a strictly smaller field value; and in
rounded arithmetic (any rounding `fl` that fixes `0` and is monotone on the non-negative
numbers, as binary32 is), whenever the computed squared distance from `r` to every blob
exceeds the cut-off and the computed squared distance from `s` is at least as large, the
field at `s` is at most the field at `r`. -/
theorem C2_field_strictly_decreasing (px py pz qx qy qz : F) (blobs : List (Metablob F))
    (hne : blobs ≠ [])
    (hp : ∀ b ∈ blobs, squared_distance px py pz b > 0.0001)
    (hq : ∀ b ∈ blobs, squared_distance qx qy qz b > squared_distance px py pz b)
    (fl : ℚ → ℚ) (h0 : fl 0 = 0) (hmono : ∀ x y : ℚ, 0 ≤ x → x ≤ y → fl x ≤ fl y)
    (rx ry rz sx sy sz : ℚ) (blobs' : List (Metablob ℚ))
    (hr : ∀ b ∈ blobs', dist_sq_fl fl rx ry rz b > fl 0.0001)
    (hs : ∀ b ∈ blobs', dist_sq_fl fl sx sy sz b ≥ dist_sq_fl fl rx ry rz b) :
    metablob_field qx qy qz blobs < metablob_field px py pz blobs
      ∧ metablob_field_fl fl sx sy sz blobs' ≤ metablob_field_fl fl rx ry rz blobs' := by
  refine ⟨?_, metablob_field_fl_antitone fl h0 hmono rx ry rz sx sy sz blobs' hr hs⟩
  cases blobs with
  | nil => exact absurd rfl hne
  | cons b bs =>
    rw [field_cons, field_cons]
    have h1 := blob_term_lt px py pz qx qy qz b (hp b (List.mem_cons_self _ _))
      (hq b (List.mem_cons_self _ _))
    have h2 := field_le_of_farther px py pz qx qy qz bs
      (fun c hc => hp c (List.mem_cons_of_mem _ hc))
      (fun c hc => hq c (List.mem_cons_of_mem _ hc))
    linarith

/-- Witness for C2 (as amended): one blob at the origin, `p = (1, 0, 0)`, `q = (2, 0, 0)`,
in exact arithmetic over the rationals and in binary32 arithmetic. -/
theorem C2_field_strictly_decreasing_witness :
    (([⟨0, 0, 0⟩] : List (Metablob ℚ)) ≠ []
        ∧ (∀ b ∈ ([⟨0, 0, 0⟩] : List (Metablob ℚ)), squared_distance 1 0 0 b > 0.0001)
        ∧ (∀ b ∈ ([⟨0, 0, 0⟩] : List (Metablob ℚ)),
            squared_distance 2 0 0 b > squared_distance 1 0 0 b)
        ∧ binary32 0 = 0
        ∧ (∀ x y : ℚ, 0 ≤ x → x ≤ y → binary32 x ≤ binary32 y)
        ∧ (∀ b ∈ ([⟨0, 0, 0⟩] : List (Metablob ℚ)),
            dist_sq_fl binary32 1 0 0 b > binary32 0.0001)
        ∧ (∀ b ∈ ([⟨0, 0, 0⟩] : List (Metablob ℚ)),
            dist_sq_fl binary32 2 0 0 b ≥ dist_sq_fl binary32 1 0 0 b))
      ∧ metablob_field (2 : ℚ) 0 0 [⟨0, 0, 0⟩] < metablob_field 1 0 0 [⟨0, 0, 0⟩]
      ∧ metablob_field_fl binary32 2 0 0 [⟨0, 0, 0⟩]
          ≤ metablob_field_fl binary32 1 0 0 [⟨0, 0, 0⟩] :=
  have h1 : ([⟨0, 0, 0⟩] : List (Metablob ℚ)) ≠ [] := by simp
  have h2 : ∀ b ∈ ([⟨0, 0, 0⟩] : List (Metablob ℚ)), squared_distance 1 0 0 b > 0.0001 := by
    intro b hb
    simp only [List.mem_singleton] at hb
    subst hb
    norm_num [squared_distance]
  have h3 : ∀ b ∈ ([⟨0, 0, 0⟩] : List (Metablob ℚ)),
      squared_distance 2 0 0 b > squared_distance 1 0 0 b := by
    intro b hb
    simp only [List.mem_singleton] at hb
    subst hb
    norm_num [squared_distance]
  have d1 : dist_sq_fl binary32 1 0 0 ⟨0, 0, 0⟩ = 1 := by
    have := dist_sq_fl_axis 1 0 1 (by norm_num) (by norm_num)
    simpa using this
  have d2 : dist_sq_fl binary32 2 0 0 ⟨0, 0, 0⟩ = 4 := by
    have := dist_sq_fl_axis 2 0 2 (by norm_num) (by norm_num)
    norm_num at this
    exact this
  have h4 : ∀ b ∈ ([⟨0, 0, 0⟩] : List (Metablob ℚ)),
      dist_sq_fl binary32 1 0 0 b > binary32 0.0001 := by
    intro b hb
    simp only [List.mem_singleton] at hb
    subst hb
    rw [d1]
    have := binary32_le_crude 0.0001 (by norm_num)
    have e : (0.0001 : ℚ) * (1001 / 1000) + 1 / 1000 < 1 := by norm_num
    exact lt_of_le_of_lt this e
  have h5 : ∀ b ∈ ([⟨0, 0, 0⟩] : List (Metablob ℚ)),
      dist_sq_fl binary32 2 0 0 b ≥ dist_sq_fl binary32 1 0 0 b := by
    intro b hb
    simp only [List.mem_singleton] at hb
    subst hb
    rw [d1, d2]
    norm_num
  ⟨⟨h1, h2, h3, binary32_zero, binary32_mono, h4, h5⟩,
    C2_field_strictly_decreasing 1 0 0 2 0 0 _ h1 h2 h3 binary32 binary32_zero binary32_mono
      1 0 0 2 0 0 [⟨0, 0, 0⟩] h4 h5⟩

/-! ### Rounded arithmetic: the marcher far from the origin -/

end Metablobs
